import Mathlib

/-!
Verification development for `midi2floppy.py`.

The program is shallowly embedded here: Python strings are modelled as
lists of code points (`List Nat`, ASCII semantics of `str.isalpha`,
`str.isdigit`, `str.upper`, `str.lower`), files as records of name and
byte size, directories as finitely branching trees, and the stateful
walk/bucketing loops as explicit state-passing folds.  Every definition
in the `Defs` part below is translated from the source file
`midi2floppy.py`; definitions whose doc comment says so follow the
specification's words instead, for refinement comparisons.
-/

namespace M2F

/-- Strings of the embedded program: lists of Unicode code points. -/
abbrev Str := List Nat

/-- Code points of a Lean string literal, used to write embedded literals. -/
def ofStr (s : String) : Str := s.data.map Char.toNat

/-- Python `c.isalpha()` restricted to ASCII letters. -/
def isAlphaN (n : Nat) : Bool := (65 ≤ n && n ≤ 90) || (97 ≤ n && n ≤ 122)

/-- Python `c.isdigit()` restricted to ASCII digits. -/
def isDigitN (n : Nat) : Bool := 48 ≤ n && n ≤ 57

/-- Python `c.upper()` on ASCII. -/
def toUpperN (n : Nat) : Nat := if 97 ≤ n && n ≤ 122 then n - 32 else n

/-- Python `c.lower()` on ASCII. -/
def toLowerN (n : Nat) : Nat := if 65 ≤ n && n ≤ 90 then n + 32 else n

/-- Uppercase ASCII letter test (for stating properties). -/
def isUpperAlphaN (n : Nat) : Bool := 65 ≤ n && n ≤ 90

/-- Python `s.lower()`. -/
def lowerStr (s : Str) : Str := s.map toLowerN

/-- Lexicographic order on code-point strings, Python's `<=` on `str`. -/
def lexLe : Str → Str → Bool
  | [], _ => true
  | _ :: _, [] => false
  | a :: as, b :: bs => if a < b then true else if a = b then lexLe as bs else false

/-- Index of the first occurrence of a dot (code point 46), if any. -/
def findDotIdx : Str → Option Nat
  | [] => none
  | c :: cs => if c = 46 then some 0 else (findDotIdx cs).map (· + 1)

/-- Index of the last dot of a string, Python's `s.rfind('.')` as an `Option`. -/
def rfindDot (s : Str) : Option Nat :=
  (findDotIdx s.reverse).map (fun k => s.length - 1 - k)

/-- Python `PurePath(name).stem`: the name with its suffix removed; a dot at
position 0 or at the very end does not start a suffix. -/
def pyStem (s : Str) : Str :=
  match rfindDot s with
  | none => s
  | some i => if 0 < i ∧ i + 1 < s.length then s.take i else s

/-- Python `PurePath(name).suffix`: the final extension including its dot,
empty when there is none. -/
def pySuffix (s : Str) : Str :=
  match rfindDot s with
  | none => []
  | some i => if 0 < i ∧ i + 1 < s.length then s.drop i else []

/-- A regular file as the program observes it: its base name and byte size. -/
structure PFile where
  name : Str
  size : Nat
deriving DecidableEq, Repr

/-- The constant `VALID_EXTS` of the source. -/
def VALID_EXTS : List Str := [ofStr ".fil", ofStr ".mid", ofStr ".midi"]

/-- Eligibility test used by both `rename_files` and `bucket_files`:
`p.suffix.lower() in VALID_EXTS`. -/
def isEligible (f : PFile) : Bool := decide (lowerStr (pySuffix f.name) ∈ VALID_EXTS)

/-- The eligible files of a directory listing. -/
def eligibleFiles (fs : List PFile) : List PFile := fs.filter isEligible

/-- Sort key comparison used by the source: `key=lambda p: p.name.lower()`. -/
def fileLe (f g : PFile) : Bool := lexLe (lowerStr f.name) (lowerStr g.name)

/-- Insertion step of a stable insertion sort by `fileLe`. -/
def insertS (f : PFile) : List PFile → List PFile
  | [] => [f]
  | g :: gs => if fileLe f g then f :: g :: gs else g :: insertS f gs

/-- Stable sort by case-insensitive name, Python's `sorted(..., key=name.lower())`. -/
def sortFiles : List PFile → List PFile
  | [] => []
  | f :: fs => insertS f (sortFiles fs)

/-- The function `get_shortname` of the source: keep the alphabetic characters
of the stem uppercased, pad with `"DKSONG"` when fewer than six remain, and
truncate to six. -/
def get_shortname (filename : Str) : Str :=
  let letters := ((pyStem filename).filter isAlphaN).map toUpperN
  let letters := if letters.length < 6 then letters ++ ofStr "DKSONG" else letters
  letters.take 6

/-- Decimal digits of `n`, most significant first, computed with explicit fuel
so that it reduces by kernel evaluation. -/
def decChars (fuel : Nat) (n : Nat) : Str :=
  match fuel with
  | 0 => []
  | fuel + 1 => if n < 10 then [n + 48] else decChars fuel (n / 10) ++ [n % 10 + 48]

/-- Python `str(n)` / `f"{n:d}"` for a natural number. -/
def decStr (n : Nat) : Str := decChars (n + 1) n

/-- Python `f"{n:02d}"`: the decimal digits left-padded with zeros to width 2. -/
def pad2 (n : Nat) : Str := List.replicate (2 - (decStr n).length) 48 ++ decStr n

/-- Normalized extension assigned by `rename_files`:
`'.FIL' if path.suffix.lower() == '.fil' else '.MID'`. -/
def extFor (name : Str) : Str :=
  if lowerStr (pySuffix name) = ofStr ".fil" then ofStr ".FIL" else ofStr ".MID"

/-- Short-name portion of a new name: truncated to 5 characters when
`idx > 99` to maintain 8.3. -/
def shortPart (idx : Nat) (name : Str) : Str :=
  if idx > 99 then (get_shortname name).take 5 else get_shortname name

/-- The new name `f"{idx:02d}{short}{ext}"` computed by `rename_files`. -/
def newName (idx : Nat) (name : Str) : Str :=
  pad2 idx ++ shortPart idx name ++ extFor name

/-- Name computed for the file at sequence index `i` of the sorted order. -/
def nameF (i : Nat) (f : PFile) : Str := newName i f.name

/-- Rename assignment applied to a file. -/
def renameF (i : Nat) (f : PFile) : PFile := { f with name := newName i f.name }

/-- Map with the element's position, the position of the head being `k`. -/
def mapWithIdx (g : Nat → α → β) : Nat → List α → List β
  | _, [] => []
  | k, f :: fs => g k f :: mapWithIdx g (k + 1) fs

/-- Names computed by one rename pass over a directory listing, in sorted
order: `enumerate` over the sorted eligible files. -/
def computedNames (fs : List PFile) : List Str :=
  mapWithIdx nameF 0 (sortFiles (eligibleFiles fs))

/-- Index of the first occurrence of a name in a list of names. -/
def idxIn : List Str → Str → Option Nat
  | [], _ => none
  | a :: t, s => if a = s then some 0 else (idxIn t s).map (· + 1)

/-- Renaming a file according to its position in the processed name list:
the file named `nms[j]` receives the name computed for sequence index
`k + j`; other files are untouched. -/
def substName (k : Nat) (nms : List Str) (f : PFile) : PFile :=
  { f with name := ((idxIn nms f.name).map (fun j => newName (k + j) f.name)).getD f.name }

/-- One `path.rename(new_path)` of the source, on a directory listing: a
no-op when the computed name equals the current name, otherwise a POSIX
rename that silently replaces any file already named `nn` and renames the
file named `origName` to `nn`. -/
def renameStep (fs : List PFile) (origName nn : Str) : List PFile :=
  if origName = nn then fs
  else (fs.filter (fun f => !decide (f.name = nn))).map
    (fun f => if f.name = origName then { f with name := nn } else f)

/-- The `for idx, path in enumerate(files)` loop of `rename_files`: the name
list is the snapshot of `Path` objects taken before any rename, and each
iteration renames by current name. -/
def renameLoop : Nat → List Str → List PFile → List PFile
  | _, [], fs => fs
  | k, nm :: rest, fs => renameLoop (k + 1) rest (renameStep fs nm (newName k nm))

/-- The function `rename_files` of the source: effect of one rename pass on
the whole directory listing, including overwrites when a computed name
collides with a file still present. -/
def rename_files (fs : List PFile) : List PFile :=
  renameLoop 0 ((sortFiles (eligibleFiles fs)).map PFile.name) fs

/-- Constant `SECTOR_SIZE` of the source. -/
def SECTOR_SIZE : Nat := 512

/-- Constant `TOTAL_SECTORS` of the source. -/
def TOTAL_SECTORS : Nat := 1440

/-- Constant `SYSTEM_SECTORS` of the source: boot + FAT1 + FAT2 + root dir. -/
def SYSTEM_SECTORS : Nat := 1 + 3 + 3 + 14

/-- Constant `DATA_SECTORS` of the source. -/
def DATA_SECTORS : Nat := TOTAL_SECTORS - SYSTEM_SECTORS

/-- Constant `MAX_CLUSTERS` of the source. -/
def MAX_CLUSTERS : Nat := DATA_SECTORS

/-- Constant `MAX_PAYLOAD_BYTES` of the source: 600 KB. -/
def MAX_PAYLOAD_BYTES : Nat := 600 * 1024

/-- Constant `MAX_FILES_PER_DISK` of the source. -/
def MAX_FILES_PER_DISK : Nat := 60

/-- Constant `IMAGES_DIRNAME` of the source. -/
def IMAGES_DIRNAME : Str := ofStr "Images"

/-- The function `rounded_clusters` of the source:
`(size + SECTOR_SIZE - 1) // SECTOR_SIZE or 1` (Python `or` turns 0 into 1). -/
def roundedClusters (size : Nat) : Nat :=
  let c := (size + SECTOR_SIZE - 1) / SECTOR_SIZE
  if c = 0 then 1 else c

/-- Name of the `i`-th bucket subdirectory of a directory named `base`:
`f"{base}_{bucket_idx}"`. -/
def bucketName (base : Str) (i : Nat) : Str := base ++ 95 :: decStr i

/-- Loop state of `bucket_files`: the open bucket, the closed buckets in
reverse creation order, and the running totals of the open bucket. -/
structure BState where
  cur : Str × List PFile
  done : List (Str × List PFile)
  bucketIdx : Nat
  usedClusters : Nat
  usedBytes : Nat
  fileCount : Nat
deriving Repr

/-- One iteration of the `for f in files` loop of `bucket_files`. -/
def bucketStep (base : Str) (s : BState) (f : PFile) : BState :=
  let clusters := roundedClusters f.size
  let needsNew :=
    decide (s.usedClusters + clusters > MAX_CLUSTERS) ||
    decide (s.usedBytes + f.size > MAX_PAYLOAD_BYTES) ||
    decide (s.fileCount + 1 > MAX_FILES_PER_DISK)
  let t : BState :=
    if needsNew then
      { cur := (bucketName base (s.bucketIdx + 1), []), done := s.cur :: s.done,
        bucketIdx := s.bucketIdx + 1, usedClusters := 0, usedBytes := 0, fileCount := 0 }
    else s
  { cur := (t.cur.1, t.cur.2 ++ [f]), done := t.done, bucketIdx := t.bucketIdx,
    usedClusters := t.usedClusters + clusters, usedBytes := t.usedBytes + f.size,
    fileCount := t.fileCount + 1 }

/-- The function `bucket_files` of the source, as the list of produced buckets
in creation order, each with the files moved into it in move order.  `base` is
the directory's name, `fs` its listing. -/
def bucketFiles (base : Str) (fs : List PFile) : List (Str × List PFile) :=
  let files := sortFiles (eligibleFiles fs)
  if files.isEmpty then []
  else
    let s := files.foldl (bucketStep base)
      { cur := (bucketName base 1, []), done := [], bucketIdx := 1,
        usedClusters := 0, usedBytes := 0, fileCount := 0 }
    (s.cur :: s.done).reverse

/-- Python `s.isdigit()`: nonempty and all digits. -/
def pyIsdigitStr (s : Str) : Bool := !s.isEmpty && s.all isDigitN

/-- Last component of a path (a path is a list of name components); the name
of the empty path is the empty string, as for Python's root-like paths. -/
def lastStr (p : List Str) : Str := p.getLast?.getD []

/-- The function `is_generated_dir` of the source: either the `Images`
directory directly under `root`, or a name of shape
`{parent.name}_{digits}` (checked with `startswith` and `isdigit`). -/
def is_generated_dir (dirpath root : List Str) : Bool :=
  decide (dirpath = root ++ [IMAGES_DIRNAME]) ||
  (let dname := lastStr dirpath
   let parname := lastStr dirpath.dropLast
   decide (List.IsPrefix (parname ++ [95]) dname) &&
     pyIsdigitStr (dname.drop (parname.length + 1)))

/-- A directory tree: name, regular files, subdirectories. -/
inductive FSDir where
  | mk (dname : Str) (files : List PFile) (subs : List FSDir)

/-- Name of a directory node. -/
def FSDir.dname : FSDir → Str
  | .mk n _ _ => n

/-- The recursion driver `process_directory`, instrumented to return the list
of paths that were actually processed (renamed, bucketed and descended into).
A directory classified generated contributes nothing and is not descended
into; bucketing creates new subdirectories which are visited by the child
loop exactly as the real `iterdir` re-listing would show them.  `fuel` bounds
the recursion depth; the walk only truncates when it runs out. -/
def walkF (fuel : Nat) (root : List Str) (pp : List Str) : FSDir → List (List Str) :=
  match fuel with
  | 0 => fun _ => []
  | fuel + 1 => fun d =>
    match d with
    | .mk n fs subs =>
      let p := pp ++ [n]
      if is_generated_dir p root then []
      else
        let listing := rename_files fs
        let newSubs := (bucketFiles n listing).map (fun b => FSDir.mk b.1 b.2 [])
        p :: (subs ++ newSubs).flatMap (walkF fuel root p)

/-- One `mapping[str(dir)].append(hfe.name)` on the manifest: Python dicts
keep insertion order, so the manifest is an association list to which new
keys are appended at the end. -/
def recordM : List (Str × List Str) → Str → Str → List (Str × List Str)
  | [], k, v => [(k, [v])]
  | (k', vs) :: rest, k, v =>
    if k' = k then (k', vs ++ [v]) :: rest else (k', vs) :: recordM rest k v

/-- Python `', '.join(xs)`. -/
def joinCS : List Str → Str
  | [] => []
  | [x] => x
  | x :: xs => x ++ ofStr ", " ++ joinCS xs

/-- The manifest built by folding all `(directory, identifier)` record events
of a run, in order. -/
def buildManifest (evs : List (Str × Str)) : List (Str × List Str) :=
  evs.foldl (fun m e => recordM m e.1 e.2) []

/-- Rendering of the manifest file: `f"{folder} > {', '.join(hfes)}"` per
entry, in stored order. -/
def renderM (m : List (Str × List Str)) : List Str :=
  m.map (fun e => e.1 ++ ofStr " > " ++ joinCS e.2)

/-- Directory keys in order of first appearance, skipping those in `seen`. -/
def firstKeysFrom (seen : List Str) : List (Str × Str) → List Str
  | [] => []
  | e :: evs =>
    if e.1 ∈ seen then firstKeysFrom seen evs
    else e.1 :: firstKeysFrom (e.1 :: seen) evs

/-- Modelled from the spec (§4.4 `render()`): one line per directory that
produced at least one container, in first-recorded order, each line the
directory path, the separator, and that directory's container identifiers
joined in production order — no deduplication, no sorting. -/
def manifestSpecLines (evs : List (Str × Str)) : List Str :=
  (firstKeysFrom [] evs).map (fun k =>
    k ++ ofStr " > " ++ joinCS ((evs.filter (fun e => decide (e.1 = k))).map (·.2)))

/-- Value of a digit string read as a decimal number. -/
def digitsVal (s : Str) : Nat := s.foldl (fun a c => 10 * a + (c - 48)) 0

/-- Sequence index recovered from a renamed file name: the value of its
maximal leading digit run. -/
def decodeIdx (s : Str) : Nat := digitsVal (s.takeWhile isDigitN)

/-- Total byte size of a list of files. -/
def sumBytes (fs : List PFile) : Nat := (fs.map PFile.size).sum

/-- Total cluster cost of a list of files. -/
def sumClusters (fs : List PFile) : Nat := (fs.map (fun f => roundedClusters f.size)).sum

/-- Ceiling condition on one produced bucket: each of the three totals is
within its ceiling, except that the byte or cluster ceiling may be exceeded
when the bucket holds a single file whose own cost exceeds it. -/
def bucketOK (b : Str × List PFile) : Prop :=
  (sumBytes b.2 ≤ MAX_PAYLOAD_BYTES ∨
    (b.2.length = 1 ∧ MAX_PAYLOAD_BYTES < sumBytes b.2)) ∧
  (sumClusters b.2 ≤ MAX_CLUSTERS ∨
    (b.2.length = 1 ∧ MAX_CLUSTERS < sumClusters b.2)) ∧
  b.2.length ≤ MAX_FILES_PER_DISK

/-- Totals bookkeeping invariant of the bucketing loop state. -/
def BInv (s : BState) : Prop :=
  s.usedBytes = sumBytes s.cur.2 ∧ s.usedClusters = sumClusters s.cur.2 ∧
  s.fileCount = s.cur.2.length ∧ bucketOK s.cur ∧ ∀ b ∈ s.done, bucketOK b

/-- Concatenation of the file lists of a sequence of buckets. -/
def concatFiles (bs : List (Str × List PFile)) : List PFile :=
  bs.foldr (fun b acc => b.2 ++ acc) []

/-- Keys of a manifest in stored order. -/
def keysOf (m : List (Str × List Str)) : List Str := m.map (·.1)

/-- Folding record events into an arbitrary starting manifest. -/
def buildFrom (m : List (Str × List Str)) (evs : List (Str × Str)) : List (Str × List Str) :=
  evs.foldl (fun m e => recordM m e.1 e.2) m

/-- Extension of one manifest entry by the record events that match its key. -/
def updF (evs : List (Str × Str)) (en : Str × List Str) : Str × List Str :=
  (en.1, en.2 ++ (evs.filter (fun e => decide (e.1 = en.1))).map (·.2))

/-- Fresh manifest entry for a key, holding its matching identifiers. -/
def newKeyF (evs : List (Str × Str)) (k : Str) : Str × List Str :=
  (k, (evs.filter (fun e => decide (e.1 = k))).map (·.2))

/-- Declarative description of the manifest after folding `evs` into `m`:
existing entries extended with their matching identifiers, then the new keys
in first-appearance order with theirs. -/
def mergeSpec (m : List (Str × List Str)) (evs : List (Str × Str)) : List (Str × List Str) :=
  m.map (updF evs) ++ (firstKeysFrom (keysOf m) evs).map (newKeyF evs)

/-! ### Character-level facts -/

lemma toUpperN_upper {c : Nat} (h : isAlphaN c = true) : isUpperAlphaN (toUpperN c) = true := by
  simp only [isAlphaN, Bool.or_eq_true, Bool.and_eq_true, decide_eq_true_eq] at h
  simp only [toUpperN, isUpperAlphaN, Bool.and_eq_true, decide_eq_true_eq]
  split <;> rename_i hc <;> (try simp at hc) <;> omega

lemma upper_not_digit {c : Nat} (h : isUpperAlphaN c = true) : isDigitN c = false := by
  simp only [isUpperAlphaN, Bool.and_eq_true, decide_eq_true_eq] at h
  simp only [isDigitN, Bool.and_eq_false_iff, decide_eq_false_iff_not]
  omega

lemma upper_not_alpha_digit {c : Nat} (h : isUpperAlphaN c = true) : isAlphaN c = true := by
  simp only [isUpperAlphaN, Bool.and_eq_true, decide_eq_true_eq] at h
  simp only [isAlphaN, Bool.or_eq_true, Bool.and_eq_true, decide_eq_true_eq]
  omega

lemma digit_not_alpha {c : Nat} (h : isDigitN c = true) : isAlphaN c = false := by
  simp only [isDigitN, Bool.and_eq_true, decide_eq_true_eq] at h
  simp only [isAlphaN, Bool.or_eq_false_iff, Bool.and_eq_false_iff, decide_eq_false_iff_not]
  omega

lemma toUpperN_of_upper {c : Nat} (h : isUpperAlphaN c = true) : toUpperN c = c := by
  simp only [isUpperAlphaN, Bool.and_eq_true, decide_eq_true_eq] at h
  simp only [toUpperN]
  split <;> rename_i hc <;> (try simp at hc) <;> omega

lemma toLowerN_of_digit {c : Nat} (h : isDigitN c = true) : toLowerN c = c := by
  simp only [isDigitN, Bool.and_eq_true, decide_eq_true_eq] at h
  simp only [toLowerN]
  split <;> rename_i hc <;> (try simp at hc) <;> omega

/-! ### Short-name generation (C4) -/

lemma shortname_length (s : Str) : (get_shortname s).length = 6 := by
  have hd : (ofStr "DKSONG").length = 6 := by decide
  simp only [get_shortname]
  split <;> rename_i h <;> simp only [List.length_take, List.length_append, hd] <;> omega

lemma shortname_upper (s : Str) : ∀ c ∈ get_shortname s, isUpperAlphaN c = true := by
  intro c hc
  simp only [get_shortname] at hc
  have hc' := List.mem_of_mem_take hc
  have hdk : ∀ c ∈ ofStr "DKSONG", isUpperAlphaN c = true := by decide
  have hflt : ∀ c ∈ ((pyStem s).filter isAlphaN).map toUpperN, isUpperAlphaN c = true := by
    intro x hx
    obtain ⟨y, hy, rfl⟩ := List.mem_map.mp hx
    exact toUpperN_upper (List.of_mem_filter hy)
  split at hc'
  · rcases List.mem_append.mp hc' with h | h
    · exact hflt c h
    · exact hdk c h
  · exact hflt c hc'

/-- C4: for every input file name, `get_shortname` returns a string of
exactly 6 uppercase alphabetic characters, totally and without failure. -/
theorem shortname_total_six_upper (s : Str) :
    (get_shortname s).length = 6 ∧ (get_shortname s).all isUpperAlphaN = true := by
  refine ⟨shortname_length s, ?_⟩
  exact List.all_eq_true.mpr (fun c hc => shortname_upper s c hc)

/-! ### Decimal strings -/

lemma decChars_digits : ∀ fuel n : Nat, ∀ c ∈ decChars fuel n, isDigitN c = true := by
  intro fuel
  induction fuel with
  | zero => intro n c hc; simp [decChars] at hc
  | succ fuel ih =>
    intro n c hc
    simp only [decChars] at hc
    split at hc
    · rename_i h
      simp only [List.mem_singleton] at hc
      subst hc
      simp only [isDigitN, Bool.and_eq_true, decide_eq_true_eq]
      omega
    · rcases List.mem_append.mp hc with h | h
      · exact ih (n / 10) c h
      · simp only [List.mem_singleton] at h
        subst h
        simp only [isDigitN, Bool.and_eq_true, decide_eq_true_eq]
        omega

lemma decStr_ne_nil (n : Nat) : decStr n ≠ [] := by
  simp only [decStr, decChars]
  split <;> simp

lemma decStr_digits (n : Nat) : ∀ c ∈ decStr n, isDigitN c = true :=
  fun c hc => decChars_digits (n + 1) n c hc

lemma digitsVal_decChars : ∀ fuel n a : Nat, n < fuel →
    List.foldl (fun a c => 10 * a + (c - 48)) a (decChars fuel n) =
      a * 10 ^ (decChars fuel n).length + n := by
  intro fuel
  induction fuel with
  | zero => intro n a h; omega
  | succ fuel ih =>
    intro n a h
    by_cases h10 : n < 10
    · simp only [decChars, if_pos h10, List.foldl_cons, List.foldl_nil, List.length_singleton]
      omega
    · have hdiv : n / 10 < fuel := by omega
      simp only [decChars, if_neg h10, List.foldl_append, List.foldl_cons, List.foldl_nil,
        List.length_append, List.length_singleton]
      rw [ih (n / 10) a hdiv]
      have hpow : (10:Nat) ^ ((decChars fuel (n / 10)).length + 1) =
          10 ^ (decChars fuel (n / 10)).length * 10 := pow_succ 10 _
      rw [hpow, ← mul_assoc]
      generalize a * 10 ^ (decChars fuel (n / 10)).length = Q
      omega

lemma digitsVal_decStr (n : Nat) : digitsVal (decStr n) = n := by
  have := digitsVal_decChars (n + 1) n 0 (Nat.lt_succ_self n)
  simpa [digitsVal, decStr] using this

lemma foldl_zeros (k : Nat) :
    List.foldl (fun a c => 10 * a + (c - 48)) 0 (List.replicate k 48) = 0 := by
  induction k with
  | zero => rfl
  | succ k ih => simpa [List.replicate_succ] using ih

lemma digitsVal_pad2 (n : Nat) : digitsVal (pad2 n) = n := by
  have h1 := foldl_zeros (2 - (decStr n).length)
  have h2 := digitsVal_decStr n
  simp only [digitsVal] at h2
  simp only [digitsVal, pad2, List.foldl_append, h1, h2]

lemma pad2_digits (n : Nat) : ∀ c ∈ pad2 n, isDigitN c = true := by
  intro c hc
  rcases List.mem_append.mp hc with h | h
  · have := List.eq_of_mem_replicate h
    subst this
    decide
  · exact decStr_digits n c h

lemma decStr_eq_single_zero {k : Nat} (h : decStr k = [48]) : k = 0 := by
  have := digitsVal_decStr k
  rw [h] at this
  simpa [digitsVal] using this.symm

/-! ### Generated-directory classification (C5) -/

/-- C5 counterexample: the directory `X_0` under a directory `X` is classified
generated by the code, yet `0` is not a positive integer, so its name is not
the parent's name, an underscore and a positive integer. -/
theorem generated_dir_counterexample :
    is_generated_dir [ofStr "r", ofStr "X", ofStr "X_0"] [ofStr "r"] = true ∧
    ¬ ([ofStr "r", ofStr "X", ofStr "X_0"] = [ofStr "r"] ++ [IMAGES_DIRNAME] ∨
       ∃ k, 1 ≤ k ∧
         lastStr [ofStr "r", ofStr "X", ofStr "X_0"] =
           lastStr (List.dropLast [ofStr "r", ofStr "X", ofStr "X_0"]) ++ 95 :: decStr k) := by
  constructor
  · decide
  · rintro (h | ⟨k, hk, h⟩)
    · exact absurd h (by decide)
    · have hl : lastStr [ofStr "r", ofStr "X", ofStr "X_0"] = [88, 95, 48] := by decide
      have hp : lastStr (List.dropLast [ofStr "r", ofStr "X", ofStr "X_0"]) = [88] := by decide
      rw [hl, hp] at h
      simp only [List.cons_append, List.nil_append, List.cons.injEq, true_and] at h
      have := decStr_eq_single_zero h.symm
      omega

/-- C5 amended: a directory is classified generated exactly when it is the
`Images` directory directly under root, or its name is its parent's name, an
underscore, and a nonempty string of decimal digits (not necessarily the
canonical form of a positive integer: `X_0` and `X_007` also qualify). -/
theorem generated_dir_characterization (dirpath root : List Str) :
    is_generated_dir dirpath root = true ↔
      dirpath = root ++ [IMAGES_DIRNAME] ∨
      ∃ ds, ds ≠ [] ∧ ds.all isDigitN = true ∧
        lastStr dirpath = lastStr dirpath.dropLast ++ 95 :: ds := by
  constructor
  · intro h
    simp only [is_generated_dir, Bool.or_eq_true, Bool.and_eq_true, decide_eq_true_eq,
      pyIsdigitStr, Bool.not_eq_true'] at h
    rcases h with h | ⟨hpre, hemp, hall⟩
    · exact Or.inl h
    · right
      obtain ⟨t, ht⟩ := hpre
      have hlen : (lastStr dirpath.dropLast ++ [95]).length =
          (lastStr dirpath.dropLast).length + 1 := by simp
      have hdrop : (lastStr dirpath).drop ((lastStr dirpath.dropLast).length + 1) = t := by
        rw [← ht, ← hlen, List.drop_left]
      rw [hdrop] at hemp hall
      refine ⟨t, ?_, hall, ?_⟩
      · intro hnil
        rw [hnil] at hemp
        simp at hemp
      · rw [← ht]
        simp
  · intro h
    simp only [is_generated_dir, Bool.or_eq_true, Bool.and_eq_true, decide_eq_true_eq,
      pyIsdigitStr, Bool.not_eq_true']
    rcases h with h | ⟨ds, hne, hall, heq⟩
    · exact Or.inl h
    · right
      have hpre : List.IsPrefix (lastStr dirpath.dropLast ++ [95]) (lastStr dirpath) := by
        rw [heq]
        exact ⟨ds, by simp⟩
      have hdrop : (lastStr dirpath).drop ((lastStr dirpath.dropLast).length + 1) = ds := by
        rw [heq]
        have hlen : (lastStr dirpath.dropLast).length + 1 =
            (lastStr dirpath.dropLast ++ [95]).length := by simp
        rw [hlen]
        have : lastStr dirpath.dropLast ++ 95 :: ds =
            (lastStr dirpath.dropLast ++ [95]) ++ ds := by simp
        rw [this, List.drop_left]
      refine ⟨hpre, ?_, ?_⟩
      · rw [hdrop]
        cases ds with
        | nil => exact absurd rfl hne
        | cons c cs => simp
      · rw [hdrop]
        exact hall

/-! ### Bucketing a single oversize file (C1) -/

/-- C1 counterexample: a single eligible file of 614401 bytes exceeds the byte
ceiling on the fresh zero-totals bucket, the overflow check fires, and the
run produces two buckets — the first empty — not one. -/
theorem single_oversize_counterexample :
    bucketFiles (ofStr "d") [⟨ofStr "a.mid", 614401⟩] =
      [(bucketName (ofStr "d") 1, []), (bucketName (ofStr "d") 2, [⟨ofStr "a.mid", 614401⟩])] ∧
    (bucketFiles (ofStr "d") [⟨ofStr "a.mid", 614401⟩]).length ≠ 1 := by
  constructor
  · decide
  · decide

/-- C1 amended: for a single eligible file whose cost alone exceeds the
cluster or byte ceiling, the overflow check evaluated against the fresh
zero-totals bucket does trigger opening a new bucket, so bucketing produces
exactly two buckets: the first empty, the second holding the file alone. -/
theorem single_oversize_two_buckets (base : Str) (f : PFile)
    (hs : sortFiles (eligibleFiles [f]) = [f])
    (hover : MAX_CLUSTERS < roundedClusters f.size ∨ MAX_PAYLOAD_BYTES < f.size) :
    bucketFiles base [f] = [(bucketName base 1, []), (bucketName base 2, [f])] := by
  have hnn : (decide (0 + roundedClusters f.size > MAX_CLUSTERS) ||
      decide (0 + f.size > MAX_PAYLOAD_BYTES) ||
      decide (0 + 1 > MAX_FILES_PER_DISK)) = true := by
    rcases hover with h | h <;> simp <;> omega
  simp only [bucketFiles, hs, List.isEmpty_cons, Bool.false_eq_true, if_false,
    List.foldl_cons, List.foldl_nil, bucketStep, hnn, if_true, List.reverse_cons,
    List.reverse_nil, List.nil_append, List.cons_append, List.nil_append]

theorem single_oversize_two_buckets_witness :
    bucketFiles (ofStr "e") [⟨ofStr "big.fil", 614401⟩] =
      [(bucketName (ofStr "e") 1, []), (bucketName (ofStr "e") 2, [⟨ofStr "big.fil", 614401⟩])] :=
  single_oversize_two_buckets (ofStr "e") ⟨ofStr "big.fil", 614401⟩ (by decide)
    (Or.inr (by decide))

/-! ### The concrete three-file scenario (C8) -/

/-- C8: three eligible files of 200000, 200000 and 250000 bytes, listed in
sorted order, are packed into exactly two buckets: the first two files fit
the first bucket, the third starts the second. -/
theorem scenario_two_buckets (base : Str) (f1 f2 f3 : PFile)
    (h1 : f1.size = 200000) (h2 : f2.size = 200000) (h3 : f3.size = 250000)
    (hs : sortFiles (eligibleFiles [f1, f2, f3]) = [f1, f2, f3]) :
    bucketFiles base [f1, f2, f3] =
      [(bucketName base 1, [f1, f2]), (bucketName base 2, [f3])] := by
  simp only [bucketFiles, hs, List.isEmpty_cons, Bool.false_eq_true, if_false,
    List.foldl_cons, List.foldl_nil]
  norm_num [bucketStep, roundedClusters, SECTOR_SIZE, MAX_CLUSTERS, DATA_SECTORS,
    TOTAL_SECTORS, SYSTEM_SECTORS, MAX_PAYLOAD_BYTES, MAX_FILES_PER_DISK, h1, h2, h3]

theorem scenario_two_buckets_witness :
    bucketFiles (ofStr "d")
        [⟨ofStr "a.mid", 200000⟩, ⟨ofStr "b.mid", 200000⟩, ⟨ofStr "c.mid", 250000⟩] =
      [(bucketName (ofStr "d") 1, [⟨ofStr "a.mid", 200000⟩, ⟨ofStr "b.mid", 200000⟩]),
       (bucketName (ofStr "d") 2, [⟨ofStr "c.mid", 250000⟩])] :=
  scenario_two_buckets (ofStr "d") _ _ _ rfl rfl rfl (by decide)

/-! ### Bucket ceilings and order preservation (C2, C3) -/

lemma sumBytes_append (l : List PFile) (f : PFile) :
    sumBytes (l ++ [f]) = sumBytes l + f.size := by
  simp [sumBytes]

lemma sumClusters_append (l : List PFile) (f : PFile) :
    sumClusters (l ++ [f]) = sumClusters l + roundedClusters f.size := by
  simp [sumClusters]

lemma bucketOK_nil (nm : Str) : bucketOK (nm, []) :=
  ⟨Or.inl (Nat.zero_le _), Or.inl (Nat.zero_le _), Nat.zero_le _⟩

lemma bucketOK_single (nm : Str) (f : PFile) : bucketOK (nm, [f]) := by
  refine ⟨?_, ?_, ?_⟩
  · rcases le_or_lt (sumBytes [f]) MAX_PAYLOAD_BYTES with h | h
    · exact Or.inl h
    · exact Or.inr ⟨rfl, h⟩
  · rcases le_or_lt (sumClusters [f]) MAX_CLUSTERS with h | h
    · exact Or.inl h
    · exact Or.inr ⟨rfl, h⟩
  · simp [MAX_FILES_PER_DISK]

lemma bucketStep_inv (base : Str) (s : BState) (f : PFile) (h : BInv s) :
    BInv (bucketStep base s f) := by
  obtain ⟨hb, hc, hf, hok, hdone⟩ := h
  by_cases hn : (decide (s.usedClusters + roundedClusters f.size > MAX_CLUSTERS) ||
      decide (s.usedBytes + f.size > MAX_PAYLOAD_BYTES) ||
      decide (s.fileCount + 1 > MAX_FILES_PER_DISK)) = true
  · simp only [bucketStep, hn, if_true]
    refine ⟨by simp [sumBytes], by simp [sumClusters], by simp, ?_, ?_⟩
    · simpa using bucketOK_single (bucketName base (s.bucketIdx + 1)) f
    · intro b hbm
      rcases List.mem_cons.mp hbm with h | h
      · exact h ▸ hok
      · exact hdone b h
  · simp only [Bool.or_eq_true, decide_eq_true_eq, not_or, not_lt] at hn
    obtain ⟨⟨hn1, hn2⟩, hn3⟩ := hn
    have hfalse : (decide (s.usedClusters + roundedClusters f.size > MAX_CLUSTERS) ||
        decide (s.usedBytes + f.size > MAX_PAYLOAD_BYTES) ||
        decide (s.fileCount + 1 > MAX_FILES_PER_DISK)) = false := by
      simp only [Bool.or_eq_false_iff, decide_eq_false_iff_not, not_lt]
      exact ⟨⟨hn1, hn2⟩, hn3⟩
    simp only [bucketStep, hfalse, Bool.false_eq_true, if_false]
    refine ⟨by simp [sumBytes_append, hb], by simp [sumClusters_append, hc],
      by simp [hf], ?_, hdone⟩
    refine ⟨Or.inl ?_, Or.inl ?_, ?_⟩
    · rw [sumBytes_append, ← hb]; exact hn2
    · rw [sumClusters_append, ← hc]; exact hn1
    · simp only [List.length_append, List.length_singleton, ← hf]; exact hn3

lemma foldl_bucketStep_inv (base : Str) (files : List PFile) :
    ∀ s : BState, BInv s → BInv (files.foldl (bucketStep base) s) := by
  induction files with
  | nil => intro s h; exact h
  | cons f t ih => intro s h; exact ih (bucketStep base s f) (bucketStep_inv base s f h)

/-- C2: every produced bucket keeps its byte total within the byte ceiling,
its cluster total within the cluster ceiling and its file count within the
count ceiling, except that the byte or cluster ceiling may be exceeded only
by a bucket consisting of the single file that alone exceeds it. -/
theorem bucket_ceilings (base : Str) (fs : List PFile) :
    ∀ b ∈ bucketFiles base fs, bucketOK b := by
  intro b hb
  simp only [bucketFiles] at hb
  split at hb
  · simp at hb
  · have hinv := foldl_bucketStep_inv base (sortFiles (eligibleFiles fs))
      { cur := (bucketName base 1, []), done := [], bucketIdx := 1,
        usedClusters := 0, usedBytes := 0, fileCount := 0 }
      ⟨by simp [sumBytes], by simp [sumClusters], by simp, bucketOK_nil _, by simp⟩
    obtain ⟨-, -, -, hok, hdone⟩ := hinv
    rcases List.mem_cons.mp (List.mem_reverse.mp hb) with h | h
    · exact h ▸ hok
    · exact hdone b h

theorem bucket_ceilings_witness :
    bucketOK (bucketName (ofStr "d") 1, [⟨ofStr "a.mid", 200000⟩]) :=
  bucket_ceilings (ofStr "d") [⟨ofStr "a.mid", 200000⟩] _ (by decide)

lemma concatFiles_append (bs cs : List (Str × List PFile)) :
    concatFiles (bs ++ cs) = concatFiles bs ++ concatFiles cs := by
  induction bs with
  | nil => simp [concatFiles]
  | cons b t ih =>
    simp only [concatFiles, List.cons_append, List.foldr_cons] at ih ⊢
    rw [ih, List.append_assoc]

lemma concatFiles_single (b : Str × List PFile) : concatFiles [b] = b.2 := by
  simp [concatFiles]

lemma bucketStep_concat (base : Str) (s : BState) (f : PFile) :
    concatFiles (((bucketStep base s f).cur :: (bucketStep base s f).done).reverse) =
      concatFiles ((s.cur :: s.done).reverse) ++ [f] := by
  by_cases hn : (decide (s.usedClusters + roundedClusters f.size > MAX_CLUSTERS) ||
      decide (s.usedBytes + f.size > MAX_PAYLOAD_BYTES) ||
      decide (s.fileCount + 1 > MAX_FILES_PER_DISK)) = true
  · simp only [bucketStep, hn, if_true, List.reverse_cons, concatFiles_append,
      concatFiles_single, List.nil_append]
    try simp [List.append_assoc]
  · rw [Bool.not_eq_true] at hn
    simp only [bucketStep, hn, Bool.false_eq_true, if_false, List.reverse_cons,
      concatFiles_append, concatFiles_single]
    try simp [List.append_assoc]

lemma foldl_bucketStep_concat (base : Str) (files : List PFile) :
    ∀ (s : BState) (acc : List PFile),
      concatFiles ((s.cur :: s.done).reverse) = acc →
      concatFiles (((files.foldl (bucketStep base) s).cur ::
          (files.foldl (bucketStep base) s).done).reverse) = acc ++ files := by
  induction files with
  | nil => intro s acc h; simpa using h
  | cons f t ih =>
    intro s acc h
    have hstep := bucketStep_concat base s f
    rw [h] at hstep
    have := ih (bucketStep base s f) (acc ++ [f]) hstep
    simpa [List.append_assoc] using this

/-- C3: the concatenation of the files of all produced buckets, in production
order, is exactly the case-insensitive sorted list of the directory's
eligible files; an empty eligible-file list produces zero buckets. -/
theorem buckets_preserve_order (base : Str) (fs : List PFile) :
    concatFiles (bucketFiles base fs) = sortFiles (eligibleFiles fs) ∧
    (eligibleFiles fs = [] → bucketFiles base fs = []) := by
  constructor
  · simp only [bucketFiles]
    split
    · rename_i he
      rw [List.isEmpty_iff] at he
      rw [he]
      rfl
    · have := foldl_bucketStep_concat base (sortFiles (eligibleFiles fs))
        { cur := (bucketName base 1, []), done := [], bucketIdx := 1,
          usedClusters := 0, usedBytes := 0, fileCount := 0 }
        [] (by simp [concatFiles])
      simpa using this
  · intro h
    simp [bucketFiles, h, sortFiles]

theorem buckets_preserve_order_witness :
    concatFiles (bucketFiles (ofStr "d") [⟨ofStr "b.mid", 1⟩, ⟨ofStr "a.mid", 2⟩]) =
      sortFiles (eligibleFiles [⟨ofStr "b.mid", 1⟩, ⟨ofStr "a.mid", 2⟩]) ∧
    bucketFiles (ofStr "d") [⟨ofStr "x.txt", 5⟩] = [] :=
  ⟨(buckets_preserve_order (ofStr "d") [⟨ofStr "b.mid", 1⟩, ⟨ofStr "a.mid", 2⟩]).1,
   (buckets_preserve_order (ofStr "d") [⟨ofStr "x.txt", 5⟩]).2 (by decide)⟩

/-! ### Distinctness of renamed names (C7) -/

lemma takeWhile_digits_append (u : Str) (c : Nat) (v : Str)
    (hu : ∀ x ∈ u, isDigitN x = true) (hc : isDigitN c = false) :
    (u ++ c :: v).takeWhile isDigitN = u := by
  induction u with
  | nil => simp [List.takeWhile_cons, hc]
  | cons a u ih =>
    have ha : isDigitN a = true := hu a (List.mem_cons_self a u)
    simp only [List.cons_append, List.takeWhile_cons, ha, if_true]
    rw [ih (fun x hx => hu x (List.mem_cons_of_mem a hx))]

lemma shortname_head (i : Nat) (name : Str) :
    ∃ c rest, shortPart i name = c :: rest ∧ isUpperAlphaN c = true := by
  have h6 := shortname_length name
  cases hsn : get_shortname name with
  | nil => rw [hsn] at h6; simp at h6
  | cons c rest =>
    have hcu : isUpperAlphaN c = true :=
      shortname_upper name c (by rw [hsn]; exact List.mem_cons_self c rest)
    by_cases hi : i > 99
    · exact ⟨c, rest.take 4, by simp [shortPart, hi, hsn, List.take_succ_cons], hcu⟩
    · exact ⟨c, rest, by simp [shortPart, hi, hsn], hcu⟩

lemma decode_newName (i : Nat) (name : Str) : decodeIdx (newName i name) = i := by
  obtain ⟨c, rest, hsn, hcu⟩ := shortname_head i name
  have hshape : newName i name = pad2 i ++ c :: (rest ++ extFor name) := by
    rw [newName, hsn]
    simp [List.append_assoc]
  rw [decodeIdx, hshape,
    takeWhile_digits_append (pad2 i) c (rest ++ extFor name) (pad2_digits i)
      (upper_not_digit hcu),
    digitsVal_pad2]

lemma mapWithIdx_names_decode : ∀ (l : List PFile) (k : Nat),
    (mapWithIdx nameF k l).map decodeIdx = List.range' k l.length := by
  intro l
  induction l with
  | nil => intro k; simp [mapWithIdx]
  | cons f t ih =>
    intro k
    simp only [mapWithIdx, List.map_cons, nameF, decode_newName, List.length_cons,
      List.range'_succ]
    rw [ih (k + 1)]

/-- C7: within one rename pass over a directory, the final names assigned to
the eligible files are pairwise distinct. -/
theorem rename_names_distinct (fs : List PFile) : (computedNames fs).Nodup := by
  have h := mapWithIdx_names_decode (sortFiles (eligibleFiles fs)) 0
  have hr : (List.range' 0 (sortFiles (eligibleFiles fs)).length).Nodup := List.nodup_range' ..
  rw [← h] at hr
  exact hr.of_map decodeIdx

/-! ### Idempotence of the rename pass (C10) -/

lemma findDotIdx_append (l r : Str) (h : ∀ x ∈ l, x ≠ 46) :
    findDotIdx (l ++ 46 :: r) = some l.length := by
  induction l with
  | nil => simp [findDotIdx]
  | cons a t ih =>
    have ha : a ≠ 46 := h a (List.mem_cons_self a t)
    have ih' := ih (fun x hx => h x (List.mem_cons_of_mem a hx))
    simp only [List.cons_append, findDotIdx, if_neg ha, List.append_eq, ih', List.length_cons]
    rfl

lemma rfindDot_concat (u v : Str) (_hu : ∀ x ∈ u, x ≠ 46) (hv : ∀ x ∈ v, x ≠ 46) :
    rfindDot (u ++ 46 :: v) = some u.length := by
  rw [rfindDot]
  have hrev : (u ++ 46 :: v).reverse = v.reverse ++ 46 :: u.reverse := by simp
  rw [hrev, findDotIdx_append _ _ (fun x hx => hv x (List.mem_reverse.mp hx))]
  show some ((u ++ 46 :: v).length - 1 - v.reverse.length) = some u.length
  congr 1
  simp only [List.length_append, List.length_cons, List.length_reverse]
  omega

lemma pyStem_concat (u v : Str) (hu0 : u ≠ []) (hv0 : v ≠ [])
    (hu : ∀ x ∈ u, x ≠ 46) (hv : ∀ x ∈ v, x ≠ 46) :
    pyStem (u ++ 46 :: v) = u := by
  have hr := rfindDot_concat u v hu hv
  have hcond : 0 < u.length ∧ u.length + 1 < (u ++ 46 :: v).length := by
    constructor
    · exact List.length_pos.mpr hu0
    · have := List.length_pos.mpr hv0
      simp only [List.length_append, List.length_cons]
      omega
  simp only [pyStem, hr, if_pos hcond, List.take_left]

lemma pySuffix_concat (u v : Str) (hu0 : u ≠ []) (hv0 : v ≠ [])
    (hu : ∀ x ∈ u, x ≠ 46) (hv : ∀ x ∈ v, x ≠ 46) :
    pySuffix (u ++ 46 :: v) = 46 :: v := by
  have hr := rfindDot_concat u v hu hv
  have hcond : 0 < u.length ∧ u.length + 1 < (u ++ 46 :: v).length := by
    constructor
    · exact List.length_pos.mpr hu0
    · have := List.length_pos.mpr hv0
      simp only [List.length_append, List.length_cons]
      omega
  simp only [pySuffix, hr, if_pos hcond, List.drop_left]

lemma pad2_ne_nil (i : Nat) : pad2 i ≠ [] := by
  have := decStr_ne_nil i
  simp only [pad2]
  intro h
  rcases List.append_eq_nil.mp h with ⟨-, h2⟩
  exact this h2

lemma pad2_no_dot (i : Nat) : ∀ x ∈ pad2 i, x ≠ 46 := by
  intro x hx
  have := pad2_digits i x hx
  simp only [isDigitN, Bool.and_eq_true, decide_eq_true_eq] at this
  omega

lemma shortPart_upper (i : Nat) (name : Str) :
    ∀ x ∈ shortPart i name, isUpperAlphaN x = true := by
  intro x hx
  simp only [shortPart] at hx
  split at hx
  · exact shortname_upper name x (List.mem_of_mem_take hx)
  · exact shortname_upper name x hx

lemma shortPart_no_dot (i : Nat) (name : Str) : ∀ x ∈ shortPart i name, x ≠ 46 := by
  intro x hx
  have := shortPart_upper i name x hx
  simp only [isUpperAlphaN, Bool.and_eq_true, decide_eq_true_eq] at this
  omega

lemma extFor_cases (name : Str) :
    extFor name = ofStr ".FIL" ∨ extFor name = ofStr ".MID" := by
  rw [extFor]
  split
  · exact Or.inl rfl
  · exact Or.inr rfl

lemma newName_parts (i : Nat) (name : Str) :
    pyStem (newName i name) = pad2 i ++ shortPart i name ∧
    pySuffix (newName i name) = extFor name := by
  have hu0 : pad2 i ++ shortPart i name ≠ [] := by
    intro h
    exact pad2_ne_nil i (List.append_eq_nil.mp h).1
  have hu : ∀ x ∈ pad2 i ++ shortPart i name, x ≠ 46 := by
    intro x hx
    rcases List.mem_append.mp hx with h | h
    · exact pad2_no_dot i x h
    · exact shortPart_no_dot i name x h
  rcases extFor_cases name with he | he
  · have hshape : newName i name = (pad2 i ++ shortPart i name) ++ 46 :: ofStr "FIL" := by
      rw [newName, he]
      simp [List.append_assoc]
      rfl
    rw [hshape, he]
    refine ⟨pyStem_concat _ _ hu0 (by decide) hu (by decide),
      by rw [pySuffix_concat _ _ hu0 (by decide) hu (by decide)]; decide⟩
  · have hshape : newName i name = (pad2 i ++ shortPart i name) ++ 46 :: ofStr "MID" := by
      rw [newName, he]
      simp [List.append_assoc]
      rfl
    rw [hshape, he]
    refine ⟨pyStem_concat _ _ hu0 (by decide) hu (by decide),
      by rw [pySuffix_concat _ _ hu0 (by decide) hu (by decide)]; decide⟩

lemma isEligible_newName (i : Nat) (name : Str) (sz : Nat) :
    isEligible ⟨newName i name, sz⟩ = true := by
  have hs := (newName_parts i name).2
  rcases extFor_cases name with he | he <;>
    · simp only [isEligible, decide_eq_true_eq]
      rw [hs, he]
      decide

lemma filter_alpha_pad2 (i : Nat) : (pad2 i).filter isAlphaN = [] := by
  rw [List.filter_eq_nil_iff]
  intro a ha
  simp [digit_not_alpha (pad2_digits i a ha)]

lemma filter_map_upper (l : Str) (h : ∀ x ∈ l, isUpperAlphaN x = true) :
    (l.filter isAlphaN).map toUpperN = l := by
  have h1 : l.filter isAlphaN = l :=
    List.filter_eq_self.mpr (fun a ha => upper_not_alpha_digit (h a ha))
  rw [h1]
  calc l.map toUpperN = l.map id := List.map_congr_left (fun a ha => toUpperN_of_upper (h a ha))
  _ = l := List.map_id l

lemma shortname_newName (i : Nat) (name : Str) (hi : ¬ i > 99) :
    get_shortname (newName i name) = get_shortname name := by
  have hstem := (newName_parts i name).1
  have hsp : shortPart i name = get_shortname name := by rw [shortPart, if_neg hi]
  have hletters : ((pyStem (newName i name)).filter isAlphaN).map toUpperN =
      get_shortname name := by
    rw [hstem, List.filter_append, filter_alpha_pad2, List.nil_append, hsp,
      filter_map_upper _ (shortname_upper name)]
  have h6 := shortname_length name
  rw [show get_shortname (newName i name) =
      (if (((pyStem (newName i name)).filter isAlphaN).map toUpperN).length < 6
       then ((pyStem (newName i name)).filter isAlphaN).map toUpperN ++ ofStr "DKSONG"
       else ((pyStem (newName i name)).filter isAlphaN).map toUpperN).take 6 from rfl,
    hletters, h6, if_neg (by omega)]
  conv_lhs => rw [← h6]
  rw [List.take_length]

lemma extFor_newName (i : Nat) (name : Str) : extFor (newName i name) = extFor name := by
  have hs := (newName_parts i name).2
  rcases extFor_cases name with he | he
  · rw [extFor, hs, he, if_pos (by decide)]
  · rw [extFor, hs, he, if_neg (by decide)]

lemma newName_idem (i : Nat) (name : Str) (hi : ¬ i > 99) :
    newName i (newName i name) = newName i name := by
  have h1 : shortPart i (newName i name) = get_shortname name := by
    rw [shortPart, if_neg hi, shortname_newName i name hi]
  have h3 : shortPart i name = get_shortname name := by rw [shortPart, if_neg hi]
  calc newName i (newName i name)
      = pad2 i ++ shortPart i (newName i name) ++ extFor (newName i name) := rfl
  _ = pad2 i ++ get_shortname name ++ extFor name := by rw [h1, extFor_newName]
  _ = newName i name := by rw [newName, h3]

lemma decStr_lt10 {n : Nat} (h : n < 10) : decStr n = [n + 48] := by
  simp [decStr, decChars, h]

lemma decStr_lt100 {n : Nat} (h10 : 10 ≤ n) (h : n < 100) :
    decStr n = [n / 10 + 48, n % 10 + 48] := by
  obtain ⟨m, rfl⟩ : ∃ m, n = m + 1 := ⟨n - 1, by omega⟩
  simp only [decStr, decChars, if_neg (by omega : ¬ m + 1 < 10)]
  simp [decChars, show (m + 1) / 10 < 10 by omega]

lemma pad2_lt100 {n : Nat} (h : n < 100) : pad2 n = [48 + n / 10, 48 + n % 10] := by
  by_cases h10 : n < 10
  · rw [pad2, decStr_lt10 h10]
    show [48, n + 48] = [48 + n / 10, 48 + n % 10]
    have e1 : 48 + n / 10 = 48 := by omega
    have e2 : 48 + n % 10 = n + 48 := by omega
    rw [e1, e2]
  · rw [pad2, decStr_lt100 (by omega) h]
    show [n / 10 + 48, n % 10 + 48] = [48 + n / 10, 48 + n % 10]
    rw [Nat.add_comm (n / 10) 48, Nat.add_comm (n % 10) 48]

lemma lexLe_pad2_append (i : Nat) (h : i + 1 < 100) (u v : Str) :
    lexLe (pad2 i ++ u) (pad2 (i + 1) ++ v) = true := by
  rw [pad2_lt100 (by omega), pad2_lt100 h]
  by_cases hd : i / 10 < (i + 1) / 10
  · simp only [List.cons_append, lexLe]
    rw [if_pos (by omega)]
  · have he : i / 10 = (i + 1) / 10 := by omega
    have hm : i % 10 < (i + 1) % 10 := by omega
    simp only [List.cons_append, lexLe]
    rw [if_neg (by omega), if_pos (by omega), if_pos (by omega)]

lemma lowerStr_append (a b : Str) : lowerStr (a ++ b) = lowerStr a ++ lowerStr b := by
  simp [lowerStr]

lemma lowerStr_pad2 (i : Nat) : lowerStr (pad2 i) = pad2 i := by
  calc (pad2 i).map toLowerN = (pad2 i).map id :=
        List.map_congr_left (fun a ha => toLowerN_of_digit (pad2_digits i a ha))
  _ = pad2 i := List.map_id _

lemma fileLe_renamed (i : Nat) (hi : i + 1 < 100) (f g : PFile) :
    fileLe (renameF i f) (renameF (i + 1) g) = true := by
  show lexLe (lowerStr (newName i f.name)) (lowerStr (newName (i + 1) g.name)) = true
  rw [newName, newName, List.append_assoc, List.append_assoc]
  simp only [lowerStr_append, lowerStr_pad2]
  exact lexLe_pad2_append i hi _ _

lemma chain_fileLe_mapWithIdx : ∀ (l : List PFile) (k : Nat), k + l.length ≤ 100 →
    List.Chain' (fun a b => fileLe a b = true) (mapWithIdx renameF k l) := by
  intro l
  induction l with
  | nil => intro k h; simp [mapWithIdx]
  | cons f t ih =>
    intro k h
    cases t with
    | nil => simp [mapWithIdx]
    | cons g t2 =>
      simp only [mapWithIdx]
      refine List.chain'_cons.mpr ⟨?_, ?_⟩
      · exact fileLe_renamed k (by simp at h; omega) f g
      · have := ih (k + 1) (by simp at h ⊢; omega)
        simpa [mapWithIdx] using this

lemma insertS_of_le (f g : PFile) (t : List PFile) (h : fileLe f g = true) :
    insertS f (g :: t) = f :: g :: t := by
  simp [insertS, h]

lemma sortFiles_of_chain : ∀ l : List PFile,
    List.Chain' (fun a b => fileLe a b = true) l → sortFiles l = l := by
  intro l
  induction l with
  | nil => intro; rfl
  | cons f t ih =>
    intro h
    rw [sortFiles, ih h.tail]
    cases t with
    | nil => rfl
    | cons g t2 => exact insertS_of_le f g t2 (List.chain'_cons.mp h).1

lemma filter_eligible_mapWithIdx : ∀ (l : List PFile) (k : Nat),
    (mapWithIdx renameF k l).filter isEligible = mapWithIdx renameF k l := by
  intro l
  induction l with
  | nil => intro k; rfl
  | cons f t ih =>
    intro k
    have he : isEligible (renameF k f) = true := isEligible_newName k f.name f.size
    simp only [mapWithIdx, List.filter_cons, he, if_true]
    rw [ih (k + 1)]

lemma insertS_length (f : PFile) : ∀ l : List PFile, (insertS f l).length = l.length + 1 := by
  intro l
  induction l with
  | nil => rfl
  | cons g t ih =>
    rw [insertS]
    split
    · simp
    · simp only [List.length_cons, ih]

lemma sortFiles_length : ∀ l : List PFile, (sortFiles l).length = l.length := by
  intro l
  induction l with
  | nil => rfl
  | cons f t ih => rw [sortFiles, insertS_length, ih]; rfl

lemma mapWithIdx_nameF_self : ∀ (l : List PFile) (k : Nat), k + l.length ≤ 100 →
    mapWithIdx nameF k (mapWithIdx renameF k l) = (mapWithIdx renameF k l).map PFile.name := by
  intro l
  induction l with
  | nil => intro k h; rfl
  | cons f t ih =>
    intro k h
    have hk : ¬ k > 99 := by simp at h; omega
    simp only [mapWithIdx, List.map_cons]
    have hhead : nameF k (renameF k f) = (renameF k f).name := by
      show newName k (newName k f.name) = newName k f.name
      exact newName_idem k f.name hk
    rw [hhead, ih (k + 1) (by simp at h; omega)]

lemma mapWithIdx_renameF_idem : ∀ (l : List PFile) (k : Nat), k + l.length ≤ 100 →
    mapWithIdx renameF k (mapWithIdx renameF k l) = mapWithIdx renameF k l := by
  intro l
  induction l with
  | nil => intro k h; rfl
  | cons f t ih =>
    intro k h
    have hk : ¬ k > 99 := by simp at h; omega
    simp only [mapWithIdx]
    have hhead : renameF k (renameF k f) = renameF k f := by
      show (⟨newName k (newName k f.name), f.size⟩ : PFile) = ⟨newName k f.name, f.size⟩
      rw [newName_idem k f.name hk]
    rw [hhead, ih (k + 1) (by simp at h; omega)]

/-! ### The walk never touches generated directories (C6) -/

lemma lastStr_concat (q : List Str) (x : Str) : lastStr (q ++ [x]) = x := by
  simp [lastStr]

lemma decStr_isdigit (i : Nat) : pyIsdigitStr (decStr i) = true := by
  have h1 : (decStr i).isEmpty = false := by
    cases h : decStr i with
    | nil => exact absurd h (decStr_ne_nil i)
    | cons a t => rfl
  simp only [pyIsdigitStr, h1, Bool.not_false, Bool.true_and]
  exact List.all_eq_true.mpr (decStr_digits i)

lemma bucket_dir_generated (root q : List Str) (base : Str) (i : Nat) :
    is_generated_dir (q ++ [base, bucketName base i]) root = true := by
  have hsplit : q ++ [base, bucketName base i] = (q ++ [base]) ++ [bucketName base i] := by
    simp
  have h1 : lastStr (q ++ [base, bucketName base i]) = bucketName base i := by
    rw [hsplit, lastStr_concat]
  have h2 : (q ++ [base, bucketName base i]).dropLast = q ++ [base] := by
    rw [hsplit, List.dropLast_concat]
  have h3 : lastStr ((q ++ [base, bucketName base i]).dropLast) = base := by
    rw [h2, lastStr_concat]
  simp only [is_generated_dir, Bool.or_eq_true, Bool.and_eq_true, decide_eq_true_eq]
  right
  rw [h1, h3]
  refine ⟨⟨decStr i, by simp [bucketName]⟩, ?_⟩
  have hb : bucketName base i = (base ++ [95]) ++ decStr i := by simp [bucketName]
  have hlen : base.length + 1 = (base ++ [95]).length := by simp
  rw [hb, hlen, List.drop_left]
  exact decStr_isdigit i

lemma walkF_not_generated : ∀ (fuel : Nat) (root pp : List Str) (d : FSDir),
    ∀ p ∈ walkF fuel root pp d, is_generated_dir p root = false := by
  intro fuel
  induction fuel with
  | zero => intro root pp d p hp; simp [walkF] at hp
  | succ fuel ih =>
    intro root pp d p hp
    cases d with
    | mk n fs subs =>
      simp only [walkF] at hp
      split at hp
      · simp at hp
      · rename_i hgen
        rcases List.mem_cons.mp hp with rfl | hp2
        · cases hb : is_generated_dir (pp ++ [n]) root with
          | false => rfl
          | true => exact absurd hb hgen
        · obtain ⟨c, hc, hpc⟩ := List.mem_flatMap.mp hp2
          exact ih root (pp ++ [n]) c p hpc

/-- C6: during a walk, a directory classified generated is skipped whole — it
is not renamed, not bucketed, nothing below it is visited — every processed
path is classified not generated, and every bucket subdirectory created by
the walk itself is classified generated, hence skipped when the child loop
reaches it. -/
theorem generated_dirs_untouched (fuel : Nat) (root pp : List Str) (d : FSDir) :
    (is_generated_dir (pp ++ [d.dname]) root = true → walkF fuel root pp d = []) ∧
    (∀ p ∈ walkF fuel root pp d, is_generated_dir p root = false) ∧
    (∀ (q : List Str) (base : Str) (i : Nat),
      is_generated_dir (q ++ [base, bucketName base i]) root = true) := by
  refine ⟨?_, walkF_not_generated fuel root pp d,
    fun q base i => bucket_dir_generated root q base i⟩
  intro h
  cases fuel with
  | zero => rfl
  | succ fuel =>
    cases d with
    | mk n fs subs =>
      simp only [FSDir.dname] at h
      simp only [walkF, h, if_true]

theorem generated_dirs_untouched_witness :
    walkF 3 [ofStr "r"] [ofStr "r"]
        (FSDir.mk (ofStr "Images") [⟨ofStr "a.mid", 3⟩] [FSDir.mk (ofStr "inner") [] []]) = [] ∧
    is_generated_dir [ofStr "r"] [ofStr "r"] = false ∧
    is_generated_dir [ofStr "r", ofStr "d", ofStr "d_1"] [ofStr "r"] = true := by
  refine ⟨?_, ?_, ?_⟩
  · exact (generated_dirs_untouched 3 [ofStr "r"] [ofStr "r"]
      (FSDir.mk (ofStr "Images") [⟨ofStr "a.mid", 3⟩] [FSDir.mk (ofStr "inner") [] []])).1
      (by decide)
  · exact (generated_dirs_untouched 1 [ofStr "r"] [] (FSDir.mk (ofStr "r") [] [])).2.1
      [ofStr "r"] (by decide)
  · have := (generated_dirs_untouched 0 [ofStr "r"] [] (FSDir.mk [] [] [])).2.2
      [ofStr "r"] (ofStr "d") 1
    simpa using this

/-! ### Manifest rendering (C9) -/

lemma updF_nil (en : Str × List Str) : updF [] en = en := by
  cases en
  simp [updF]

lemma updF_cons_ne (k0 : Str) (v0 : Str) (evs : List (Str × Str)) (en : Str × List Str)
    (h : en.1 ≠ k0) : updF ((k0, v0) :: evs) en = updF evs en := by
  simp only [updF, List.filter_cons, decide_eq_true_eq]
  rw [if_neg (fun hh => h hh.symm)]

lemma updF_cons_eq (k0 : Str) (v0 : Str) (evs : List (Str × Str)) (en : Str × List Str)
    (h : en.1 = k0) : updF ((k0, v0) :: evs) en = updF evs (en.1, en.2 ++ [v0]) := by
  simp only [updF, List.filter_cons, decide_eq_true_eq]
  rw [if_pos (by simp [h])]
  simp [List.append_assoc]

lemma newKeyF_cons_ne (k0 : Str) (v0 : Str) (evs : List (Str × Str)) (k : Str)
    (h : k ≠ k0) : newKeyF ((k0, v0) :: evs) k = newKeyF evs k := by
  simp only [newKeyF, List.filter_cons, decide_eq_true_eq]
  rw [if_neg (fun hh => h hh.symm)]

lemma mem_firstKeysFrom_not_seen : ∀ (evs : List (Str × Str)) (seen : List Str) (k : Str),
    k ∈ firstKeysFrom seen evs → ¬ k ∈ seen := by
  intro evs
  induction evs with
  | nil => intro seen k hk; simp [firstKeysFrom] at hk
  | cons e evs ih =>
    intro seen k hk
    simp only [firstKeysFrom] at hk
    split at hk
    · exact ih seen k hk
    · rename_i hnot
      rcases List.mem_cons.mp hk with rfl | hk2
      · exact hnot
      · intro hmem
        exact ih (e.1 :: seen) k hk2 (List.mem_cons_of_mem e.1 hmem)

lemma firstKeysFrom_congr : ∀ (evs : List (Str × Str)) (seen1 seen2 : List Str),
    (∀ x : Str, x ∈ seen1 ↔ x ∈ seen2) →
    firstKeysFrom seen1 evs = firstKeysFrom seen2 evs := by
  intro evs
  induction evs with
  | nil => intro seen1 seen2 h; rfl
  | cons e evs ih =>
    intro seen1 seen2 h
    by_cases he : e.1 ∈ seen1
    · simp only [firstKeysFrom, if_pos he, if_pos ((h e.1).mp he)]
      exact ih seen1 seen2 h
    · simp only [firstKeysFrom, if_neg he, if_neg (fun hh => he ((h e.1).mpr hh))]
      refine congrArg (e.1 :: ·) (ih (e.1 :: seen1) (e.1 :: seen2) ?_)
      intro x
      simp only [List.mem_cons]
      exact or_congr Iff.rfl (h x)

lemma recordM_keys_of_mem (k0 : Str) (v0 : Str) : ∀ m : List (Str × List Str),
    k0 ∈ keysOf m → keysOf (recordM m k0 v0) = keysOf m := by
  intro m
  induction m with
  | nil => intro h; simp [keysOf] at h
  | cons en m ih =>
    intro h
    obtain ⟨k1, vs⟩ := en
    by_cases hk : k1 = k0
    · simp [recordM, hk, keysOf]
    · have h2 : k0 ∈ keysOf m := by
        simp only [keysOf, List.map_cons, List.mem_cons] at h
        rcases h with h | h
        · exact absurd h.symm hk
        · exact h
      have hrec := ih h2
      simp only [recordM, if_neg hk]
      show keysOf ((k1, vs) :: recordM m k0 v0) = keysOf ((k1, vs) :: m)
      simp only [keysOf, List.map_cons]
      exact congrArg (k1 :: ·) hrec

lemma recordM_of_not_mem (k0 : Str) (v0 : Str) : ∀ m : List (Str × List Str),
    ¬ k0 ∈ keysOf m → recordM m k0 v0 = m ++ [(k0, [v0])] := by
  intro m
  induction m with
  | nil => intro h; rfl
  | cons en m ih =>
    intro h
    obtain ⟨k1, vs⟩ := en
    have hk : ¬ k1 = k0 := by
      intro hh
      exact h (by simp [keysOf, hh])
    have h2 : ¬ k0 ∈ keysOf m := by
      intro hh
      exact h (by simp [keysOf] at hh ⊢; exact Or.inr hh)
    simp only [recordM, if_neg hk, List.cons_append]
    rw [ih h2]

lemma recordM_map_updF (k0 : Str) (v0 : Str) (evs : List (Str × Str)) :
    ∀ m : List (Str × List Str), (keysOf m).Nodup → k0 ∈ keysOf m →
    (recordM m k0 v0).map (updF evs) = m.map (updF ((k0, v0) :: evs)) := by
  intro m
  induction m with
  | nil => intro _ h; simp [keysOf] at h
  | cons en m ih =>
    intro hnd hmem
    obtain ⟨k1, vs⟩ := en
    have hnd1 : ¬ k1 ∈ keysOf m := by
      simp only [keysOf, List.map_cons, List.nodup_cons] at hnd
      exact hnd.1
    have hnd2 : (keysOf m).Nodup := by
      simp only [keysOf, List.map_cons, List.nodup_cons] at hnd
      exact hnd.2
    by_cases hk : k1 = k0
    · simp only [recordM, if_pos hk, List.map_cons]
      have hhead : updF evs (k1, vs ++ [v0]) = updF ((k0, v0) :: evs) (k1, vs) :=
        (updF_cons_eq k0 v0 evs (k1, vs) hk).symm
      rw [hhead]
      refine congrArg (updF ((k0, v0) :: evs) (k1, vs) :: ·) ?_
      refine List.map_congr_left ?_
      intro en hen
      have : en.1 ∈ keysOf m := List.mem_map_of_mem (·.1) hen
      exact (updF_cons_ne k0 v0 evs en (fun hh => hnd1 (hk ▸ hh ▸ this))).symm
    · have h2 : k0 ∈ keysOf m := by
        simp only [keysOf, List.map_cons, List.mem_cons] at hmem
        rcases hmem with h | h
        · exact absurd h.symm hk
        · exact h
      simp only [recordM, if_neg hk, List.map_cons]
      rw [ih hnd2 h2]
      refine congrArg (· :: List.map (updF ((k0, v0) :: evs)) m) ?_
      exact (updF_cons_ne k0 v0 evs (k1, vs) hk).symm

lemma buildFrom_merge : ∀ (evs : List (Str × Str)) (m : List (Str × List Str)),
    (keysOf m).Nodup → buildFrom m evs = mergeSpec m evs := by
  intro evs
  induction evs with
  | nil =>
    intro m hnd
    show m = mergeSpec m []
    have hm : m.map (updF []) = m := by
      calc m.map (updF []) = m.map id := List.map_congr_left (fun en _ => updF_nil en)
      _ = m := List.map_id m
    simp [mergeSpec, firstKeysFrom, hm]
  | cons e evs ih =>
    intro m hnd
    obtain ⟨k0, v0⟩ := e
    show buildFrom (recordM m k0 v0) evs = mergeSpec m ((k0, v0) :: evs)
    by_cases hin : k0 ∈ keysOf m
    · have hkeys := recordM_keys_of_mem k0 v0 m hin
      rw [ih (recordM m k0 v0) (by rw [hkeys]; exact hnd)]
      rw [mergeSpec, mergeSpec, hkeys]
      have p1 := recordM_map_updF k0 v0 evs m hnd hin
      have p2 : firstKeysFrom (keysOf m) ((k0, v0) :: evs) = firstKeysFrom (keysOf m) evs := by
        simp [firstKeysFrom, hin]
      have p3 : (firstKeysFrom (keysOf m) evs).map (newKeyF evs) =
          (firstKeysFrom (keysOf m) evs).map (newKeyF ((k0, v0) :: evs)) := by
        refine List.map_congr_left ?_
        intro k hk
        have hknot := mem_firstKeysFrom_not_seen evs (keysOf m) k hk
        exact (newKeyF_cons_ne k0 v0 evs k (fun hh => hknot (hh ▸ hin))).symm
      rw [p1, p2, ← p3]
    · have hrec := recordM_of_not_mem k0 v0 m hin
      have hkeys2 : keysOf (m ++ [(k0, [v0])]) = keysOf m ++ [k0] := by simp [keysOf]
      have hnd2 : (keysOf (recordM m k0 v0)).Nodup := by
        rw [hrec, hkeys2, List.nodup_append]
        exact ⟨hnd, List.nodup_singleton k0,
          fun a ha hb => hin (by rwa [List.mem_singleton.mp hb] at ha)⟩
      rw [ih (recordM m k0 v0) hnd2, hrec, mergeSpec, mergeSpec, hkeys2]
      have e1 : (m ++ [(k0, [v0])]).map (updF evs) =
          m.map (updF ((k0, v0) :: evs)) ++ [updF evs (k0, [v0])] := by
        rw [List.map_append]
        refine congrArg (· ++ [updF evs (k0, [v0])]) ?_
        refine List.map_congr_left ?_
        intro en hen
        have hm : en.1 ∈ keysOf m := List.mem_map_of_mem (·.1) hen
        exact (updF_cons_ne k0 v0 evs en (fun hh => hin (hh ▸ hm))).symm
      have e2 : updF evs (k0, [v0]) = newKeyF ((k0, v0) :: evs) k0 := by
        simp [updF, newKeyF, List.filter_cons]
      have e3 : firstKeysFrom (keysOf m ++ [k0]) evs = firstKeysFrom (k0 :: keysOf m) evs := by
        refine firstKeysFrom_congr evs _ _ ?_
        intro x
        simp [List.mem_append, or_comm]
      have e4 : (firstKeysFrom (k0 :: keysOf m) evs).map (newKeyF evs) =
          (firstKeysFrom (k0 :: keysOf m) evs).map (newKeyF ((k0, v0) :: evs)) := by
        refine List.map_congr_left ?_
        intro k hk
        have hknot := mem_firstKeysFrom_not_seen evs (k0 :: keysOf m) k hk
        exact (newKeyF_cons_ne k0 v0 evs k
          (fun hh => hknot (hh ▸ List.mem_cons_self k0 (keysOf m)))).symm
      have e5 : firstKeysFrom (keysOf m) ((k0, v0) :: evs) =
          k0 :: firstKeysFrom (k0 :: keysOf m) evs := by
        simp [firstKeysFrom, hin]
      rw [e1, e2, e3, e4, e5]
      simp [List.append_assoc]

/-- C9: the rendered manifest has exactly one line per directory that
recorded at least one container identifier, in order of first record, each
line being the directory path, the separator, and its identifiers joined in
record order — no deduplication, no sorting. -/
theorem manifest_render_spec (evs : List (Str × Str)) :
    renderM (buildManifest evs) = manifestSpecLines evs := by
  have h := buildFrom_merge evs [] (by simp [keysOf])
  have hb : buildManifest evs = (firstKeysFrom [] evs).map (newKeyF evs) := by
    rw [show buildManifest evs = buildFrom [] evs from rfl, h, mergeSpec]
    simp [keysOf]
  rw [renderM, hb, List.map_map, manifestSpecLines]
  refine List.map_congr_left ?_
  intro k hk
  simp [newKeyF, Function.comp]

/-! ### The rename pass and its idempotence (C10) -/

lemma lexLe_refl : ∀ s : Str, lexLe s s = true := by
  intro s
  induction s with
  | nil => rfl
  | cons a t ih => simp [lexLe, ih]

lemma lexLe_total : ∀ a b : Str, lexLe a b = true ∨ lexLe b a = true := by
  intro a
  induction a with
  | nil => intro b; exact Or.inl rfl
  | cons x xs ih =>
    intro b
    cases b with
    | nil => exact Or.inr rfl
    | cons y ys =>
      rcases Nat.lt_trichotomy x y with h | h | h
      · left; simp [lexLe, h]
      · subst h
        rcases ih ys with h2 | h2
        · left; simp [lexLe, h2]
        · right; simp [lexLe, h2]
      · right; simp [lexLe, h]

lemma lexLe_trans : ∀ a b c : Str, lexLe a b = true → lexLe b c = true → lexLe a c = true := by
  intro a
  induction a with
  | nil => intro b c _ _; rfl
  | cons x xs ih =>
    intro b c hab hbc
    cases b with
    | nil => simp [lexLe] at hab
    | cons y ys =>
      cases c with
      | nil => simp [lexLe] at hbc
      | cons z zs =>
        simp only [lexLe] at hab hbc ⊢
        split at hab
        · rename_i hxy
          split at hbc
          · rename_i hyz; rw [if_pos (by omega)]
          · split at hbc
            · rename_i hyz; rw [if_pos (by omega)]
            · simp at hbc
        · split at hab
          · rename_i hxy
            split at hbc
            · rename_i hyz; rw [if_pos (by omega)]
            · split at hbc
              · rename_i hyz
                rw [if_neg (by omega), if_pos (by omega)]
                exact ih ys zs hab hbc
              · simp at hbc
          · simp at hab

lemma fileLe_total (f g : PFile) : fileLe f g = true ∨ fileLe g f = true :=
  lexLe_total _ _

lemma fileLe_trans (f g h : PFile) :
    fileLe f g = true → fileLe g h = true → fileLe f h = true :=
  lexLe_trans _ _ _

lemma mem_insertS (f x : PFile) : ∀ l : List PFile, x ∈ insertS f l → x = f ∨ x ∈ l := by
  intro l
  induction l with
  | nil => intro h; simp [insertS] at h; exact Or.inl h
  | cons g gs ih =>
    intro h
    rw [insertS] at h
    split at h
    · rcases List.mem_cons.mp h with h1 | h1
      · exact Or.inl h1
      · exact Or.inr h1
    · rcases List.mem_cons.mp h with h1 | h1
      · exact Or.inr (h1 ▸ List.mem_cons_self g gs)
      · rcases ih h1 with h2 | h2
        · exact Or.inl h2
        · exact Or.inr (List.mem_cons_of_mem g h2)

lemma pairwise_insertS (f : PFile) : ∀ l : List PFile,
    List.Pairwise (fun a b => fileLe a b = true) l →
    List.Pairwise (fun a b => fileLe a b = true) (insertS f l) := by
  intro l
  induction l with
  | nil => intro _; simp [insertS]
  | cons g gs ih =>
    intro hp
    obtain ⟨hg, hgs⟩ := List.pairwise_cons.mp hp
    rw [insertS]
    split
    · rename_i hfg
      refine List.pairwise_cons.mpr ⟨?_, hp⟩
      intro b hb
      rcases List.mem_cons.mp hb with rfl | hb2
      · exact hfg
      · exact fileLe_trans f g b hfg (hg b hb2)
    · rename_i hfg
      have hgf : fileLe g f = true := by
        rcases fileLe_total f g with h | h
        · exact absurd h hfg
        · exact h
      refine List.pairwise_cons.mpr ⟨?_, ih hgs⟩
      intro b hb
      rcases mem_insertS f b gs hb with rfl | hb2
      · exact hgf
      · exact hg b hb2

lemma pairwise_sortFiles : ∀ l : List PFile,
    List.Pairwise (fun a b => fileLe a b = true) (sortFiles l) := by
  intro l
  induction l with
  | nil => simp [sortFiles]
  | cons f t ih => exact pairwise_insertS f (sortFiles t) ih

lemma insertS_perm (f : PFile) : ∀ l : List PFile, List.Perm (insertS f l) (f :: l) := by
  intro l
  induction l with
  | nil => exact List.Perm.refl _
  | cons g gs ih =>
    rw [insertS]
    split
    · exact List.Perm.refl _
    · exact List.Perm.trans (List.Perm.cons g ih) (List.Perm.swap f g gs)

lemma sortFiles_perm : ∀ l : List PFile, List.Perm (sortFiles l) l := by
  intro l
  induction l with
  | nil => exact List.Perm.refl _
  | cons f t ih => exact (insertS_perm f (sortFiles t)).trans (List.Perm.cons f ih)

lemma lexLe_pad2_lt {i j : Nat} (hij : i < j) (hj : j < 100) (u v : Str) :
    lexLe (pad2 i ++ u) (pad2 j ++ v) = true ∧ lexLe (pad2 j ++ v) (pad2 i ++ u) = false := by
  rw [pad2_lt100 (by omega), pad2_lt100 hj]
  by_cases hd : i / 10 < j / 10
  · constructor
    · simp only [List.cons_append, lexLe]
      rw [if_pos (by omega)]
    · simp only [List.cons_append, lexLe]
      rw [if_neg (by omega), if_neg (by omega)]
  · have he : i / 10 = j / 10 := by omega
    have hm : i % 10 < j % 10 := by omega
    constructor
    · simp only [List.cons_append, lexLe]
      rw [if_neg (by omega), if_pos (by omega), if_pos (by omega)]
    · simp only [List.cons_append, lexLe]
      rw [if_neg (by omega), if_pos (by omega), if_neg (by omega), if_neg (by omega)]

lemma fileLe_renamed_lt {i j : Nat} (hij : i < j) (hj : j < 100) (f g : PFile) :
    fileLe (renameF i f) (renameF j g) = true ∧ fileLe (renameF j g) (renameF i f) = false := by
  have h1 : lowerStr (newName i f.name) =
      pad2 i ++ (lowerStr (shortPart i f.name) ++ lowerStr (extFor f.name)) := by
    rw [newName, List.append_assoc]
    simp only [lowerStr_append, lowerStr_pad2]
  have h2 : lowerStr (newName j g.name) =
      pad2 j ++ (lowerStr (shortPart j g.name) ++ lowerStr (extFor g.name)) := by
    rw [newName, List.append_assoc]
    simp only [lowerStr_append, lowerStr_pad2]
  constructor
  · show lexLe (lowerStr (newName i f.name)) (lowerStr (newName j g.name)) = true
    rw [h1, h2]
    exact (lexLe_pad2_lt hij hj _ _).1
  · show lexLe (lowerStr (newName j g.name)) (lowerStr (newName i f.name)) = false
    rw [h1, h2]
    exact (lexLe_pad2_lt hij hj _ _).2

lemma mem_mapWithIdx_renameF : ∀ (l : List PFile) (k : Nat) (x : PFile),
    x ∈ mapWithIdx renameF k l → ∃ i g, k ≤ i ∧ i < k + l.length ∧ x = renameF i g := by
  intro l
  induction l with
  | nil => intro k x h; simp [mapWithIdx] at h
  | cons f t ih =>
    intro k x h
    simp only [mapWithIdx] at h
    rcases List.mem_cons.mp h with rfl | h2
    · exact ⟨k, f, Nat.le_refl k, by simp, rfl⟩
    · obtain ⟨i, g, hki, hlt, hx⟩ := ih (k + 1) x h2
      exact ⟨i, g, by omega, by simp only [List.length_cons]; omega, hx⟩

lemma pairwise_strict_mapWithIdx : ∀ (l : List PFile) (k : Nat), k + l.length ≤ 100 →
    List.Pairwise (fun a b => fileLe a b = true ∧ fileLe b a = false)
      (mapWithIdx renameF k l) := by
  intro l
  induction l with
  | nil => intro k _; simp [mapWithIdx]
  | cons f t ih =>
    intro k h
    simp only [mapWithIdx]
    refine List.pairwise_cons.mpr ⟨?_, ih (k + 1) (by simp only [List.length_cons] at h; omega)⟩
    intro b hb
    obtain ⟨i, g, hki, hlt, rfl⟩ := mem_mapWithIdx_renameF t (k + 1) b hb
    have hi100 : i < 100 := by simp only [List.length_cons] at h; omega
    exact fileLe_renamed_lt (by omega) hi100 f g

lemma sorted_perm_eq : ∀ L : List PFile,
    List.Pairwise (fun a b => fileLe a b = true ∧ fileLe b a = false) L →
    ∀ l : List PFile, List.Perm l L →
    List.Pairwise (fun a b => fileLe a b = true) l → l = L := by
  intro L
  induction L with
  | nil => intro _ l hperm _; exact hperm.eq_nil
  | cons b L2 ihL =>
    intro hstrict l hperm hsorted
    obtain ⟨hbL, hstrict2⟩ := List.pairwise_cons.mp hstrict
    cases l with
    | nil => exact absurd hperm.symm.eq_nil (by simp)
    | cons a l2 =>
      obtain ⟨hal, hsorted2⟩ := List.pairwise_cons.mp hsorted
      by_cases hab : a = b
      · subst hab
        have hperm2 : List.Perm l2 L2 := hperm.cons_inv
        rw [ihL hstrict2 l2 hperm2 hsorted2]
      · exfalso
        have hamem : a ∈ b :: L2 := hperm.subset (List.mem_cons_self a l2)
        have haL2 : a ∈ L2 := by
          rcases List.mem_cons.mp hamem with h1 | h1
          · exact absurd h1 hab
          · exact h1
        have hfa : fileLe a b = false := (hbL a haL2).2
        have hbmem : b ∈ a :: l2 := hperm.symm.subset (List.mem_cons_self b L2)
        rcases List.mem_cons.mp hbmem with h1 | h1
        · exact hab h1.symm
        · have hh := hal b h1
          rw [hfa] at hh
          exact Bool.false_ne_true hh

lemma decode_mem_ge : ∀ (nms : List Str) (k : Nat) (nn : Str),
    nn ∈ mapWithIdx newName k nms → k ≤ decodeIdx nn := by
  intro nms
  induction nms with
  | nil => intro k nn h; simp [mapWithIdx] at h
  | cons a t ih =>
    intro k nn h
    simp only [mapWithIdx] at h
    rcases List.mem_cons.mp h with rfl | h2
    · rw [decode_newName]
    · have := ih (k + 1) nn h2
      omega

lemma mapWithIdx_newName_map_name : ∀ (l : List PFile) (k : Nat),
    mapWithIdx newName k (l.map PFile.name) = mapWithIdx nameF k l := by
  intro l
  induction l with
  | nil => intro k; rfl
  | cons f t ih => intro k; simp only [List.map_cons, mapWithIdx, nameF]; rw [ih (k + 1)]

lemma map_name_mapWithIdx_renameF : ∀ (l : List PFile) (k : Nat),
    (mapWithIdx renameF k l).map PFile.name = mapWithIdx nameF k l := by
  intro l
  induction l with
  | nil => intro k; rfl
  | cons f t ih =>
    intro k
    simp only [mapWithIdx, List.map_cons]
    rw [ih (k + 1)]
    rfl

lemma idxIn_mem : ∀ (l : List Str) (s : Str) (j : Nat), idxIn l s = some j → s ∈ l := by
  intro l
  induction l with
  | nil => intro s j h; simp [idxIn] at h
  | cons a t ih =>
    intro s j h
    rw [show idxIn (a :: t) s =
      (if a = s then some 0 else (idxIn t s).map (· + 1)) from rfl] at h
    split at h
    · rename_i ha; exact List.mem_cons.mpr (Or.inl ha.symm)
    · cases hidx : idxIn t s with
      | none => rw [hidx] at h; simp at h
      | some j2 => exact List.mem_cons_of_mem a (ih s j2 hidx)

lemma idxIn_not_mem : ∀ (l : List Str) (s : Str), ¬ s ∈ l → idxIn l s = none := by
  intro l
  induction l with
  | nil => intro s _; rfl
  | cons a t ih =>
    intro s hs
    have ha : ¬ a = s := fun h => hs (h ▸ List.mem_cons_self a t)
    show (if a = s then some 0 else (idxIn t s).map (· + 1)) = none
    rw [if_neg ha, ih s (fun h => hs (List.mem_cons_of_mem a h))]
    rfl

lemma idxIn_append_of_not_mem : ∀ (pre l : List Str) (s : Str), ¬ s ∈ pre →
    idxIn (pre ++ l) s = (idxIn l s).map (· + pre.length) := by
  intro pre
  induction pre with
  | nil =>
    intro l s _
    simp only [List.nil_append, List.length_nil]
    cases hli : idxIn l s with
    | none => rfl
    | some j => simp
  | cons a pre ih =>
    intro l s hs
    have ha : ¬ a = s := fun h => hs (h ▸ List.mem_cons_self a pre)
    rw [List.cons_append,
      show idxIn (a :: (pre ++ l)) s =
        (if a = s then some 0 else (idxIn (pre ++ l) s).map (· + 1)) from rfl,
      if_neg ha, ih l s (fun h => hs (List.mem_cons_of_mem a h))]
    cases hli : idxIn l s with
    | none => rfl
    | some j =>
      show some (j + pre.length + 1) = some (j + (a :: pre).length)
      have harith : j + pre.length + 1 = j + (a :: pre).length := by
        simp only [List.length_cons]; omega
      rw [harith]

lemma renameStep_self (fs : List PFile) (nm : Str) : renameStep fs nm nm = fs := by
  rw [renameStep, if_pos rfl]

lemma renameStep_map (fs : List PFile) (nm nn : Str)
    (h : nm = nn ∨ ∀ f ∈ fs, f.name ≠ nn) :
    renameStep fs nm nn =
      fs.map (fun f => if f.name = nm then { f with name := nn } else f) := by
  by_cases hmn : nm = nn
  · subst hmn
    rw [renameStep_self]
    have hpt : ∀ f ∈ fs, (if f.name = nm then { f with name := nm } else f) = f := by
      intro f _
      by_cases hc : f.name = nm
      · rw [if_pos hc, ← hc]
      · rw [if_neg hc]
    symm
    calc fs.map (fun f => if f.name = nm then { f with name := nm } else f)
        = fs.map id := List.map_congr_left hpt
    _ = fs := List.map_id fs
  · rcases h with h | h
    · exact absurd h hmn
    · rw [renameStep, if_neg hmn,
        List.filter_eq_self.mpr (fun f hf => by simp [h f hf])]

lemma renameLoop_subst : ∀ (nms : List Str) (k : Nat) (fs : List PFile),
    (∀ nn ∈ mapWithIdx newName k nms, ∀ f ∈ fs, f.name ≠ nn) →
    (∀ nm ∈ nms, ∀ nn ∈ mapWithIdx newName k nms, nm ≠ nn) →
    renameLoop k nms fs = fs.map (substName k nms) := by
  intro nms
  induction nms with
  | nil =>
    intro k fs _ _
    show fs = fs.map (substName k [])
    symm
    calc fs.map (substName k []) = fs.map id := List.map_congr_left (fun f _ => rfl)
    _ = fs := List.map_id fs
  | cons nm rest ih =>
    intro k fs hfresh hdisj
    have htargets : mapWithIdx newName k (nm :: rest) =
        newName k nm :: mapWithIdx newName (k + 1) rest := rfl
    have hfr0 : ∀ f ∈ fs, f.name ≠ newName k nm := fun f hf =>
      hfresh (newName k nm) (htargets ▸ List.mem_cons_self _ _) f hf
    have hstep : renameStep fs nm (newName k nm) =
        fs.map (fun f => if f.name = nm then { f with name := newName k nm } else f) :=
      renameStep_map fs nm (newName k nm) (Or.inr hfr0)
    show renameLoop (k + 1) rest (renameStep fs nm (newName k nm)) =
      fs.map (substName k (nm :: rest))
    rw [hstep]
    have hfresh2 : ∀ nn ∈ mapWithIdx newName (k + 1) rest,
        ∀ f2 ∈ fs.map (fun f => if f.name = nm then { f with name := newName k nm } else f),
        f2.name ≠ nn := by
      intro nn hnn f2 hf2
      obtain ⟨f, hf, rfl⟩ := List.mem_map.mp hf2
      have hge : k + 1 ≤ decodeIdx nn := decode_mem_ge rest (k + 1) nn hnn
      by_cases hc : f.name = nm
      · rw [if_pos hc]
        show newName k nm ≠ nn
        intro he
        rw [← he, decode_newName] at hge
        omega
      · rw [if_neg hc]
        exact hfresh nn (htargets ▸ List.mem_cons_of_mem _ hnn) f hf
    have hdisj2 : ∀ nm2 ∈ rest, ∀ nn ∈ mapWithIdx newName (k + 1) rest, nm2 ≠ nn := by
      intro nm2 h1 nn h2
      exact hdisj nm2 (List.mem_cons_of_mem nm h1) nn (htargets ▸ List.mem_cons_of_mem _ h2)
    rw [ih (k + 1) _ hfresh2 hdisj2, List.map_map]
    refine List.map_congr_left ?_
    intro f _
    show substName (k + 1) rest (if f.name = nm then { f with name := newName k nm } else f) =
      substName k (nm :: rest) f
    by_cases hc : f.name = nm
    · rw [if_pos hc]
      have hnr : ¬ newName k nm ∈ rest := by
        intro hmem
        exact hdisj (newName k nm) (List.mem_cons_of_mem nm hmem)
          (newName k nm) (htargets ▸ List.mem_cons_self _ _) rfl
      have h1 : substName (k + 1) rest { f with name := newName k nm } =
          { f with name := newName k nm } := by
        have hnone : idxIn rest ({ f with name := newName k nm } : PFile).name = none :=
          idxIn_not_mem rest _ hnr
        simp [substName, hnone]
      rw [h1]
      have h2 : idxIn (nm :: rest) nm = some 0 := by
        rw [show idxIn (nm :: rest) nm =
          (if nm = nm then some 0 else (idxIn rest nm).map (· + 1)) from rfl,
          if_pos rfl]
      simp [substName, h2, hc]
    · rw [if_neg hc]
      have hni : ¬ nm = f.name := fun hh => hc hh.symm
      have hstep2 : idxIn (nm :: rest) f.name = (idxIn rest f.name).map (· + 1) := by
        rw [show idxIn (nm :: rest) f.name =
          (if nm = f.name then some 0 else (idxIn rest f.name).map (· + 1)) from rfl,
          if_neg hni]
      cases hidx : idxIn rest f.name with
      | none => simp [substName, hidx, hstep2]
      | some j =>
        have harith : k + 1 + j = k + (j + 1) := by omega
        have hL : substName (k + 1) rest f = { f with name := newName (k + 1 + j) f.name } := by
          simp [substName, hidx]
        have hR : substName k (nm :: rest) f =
            { f with name := newName (k + (j + 1)) f.name } := by
          simp [substName, hstep2, hidx]
        rw [hL, hR, harith]

lemma subst_positions : ∀ (l : List PFile) (pre : List Str) (k : Nat),
    (pre ++ l.map PFile.name).Nodup →
    l.map (substName k (pre ++ l.map PFile.name)) = mapWithIdx renameF (k + pre.length) l := by
  intro l
  induction l with
  | nil => intro pre k _; rfl
  | cons f t ih =>
    intro pre k hnd
    simp only [List.map_cons, mapWithIdx]
    have hfn : ¬ f.name ∈ pre := by
      intro hmem
      rw [List.nodup_append] at hnd
      exact hnd.2.2 hmem (by simp)
    have hidx : idxIn (pre ++ f.name :: t.map PFile.name) f.name = some pre.length := by
      rw [idxIn_append_of_not_mem pre _ f.name hfn,
        show idxIn (f.name :: t.map PFile.name) f.name =
          (if f.name = f.name then some 0
           else (idxIn (t.map PFile.name) f.name).map (· + 1)) from rfl,
        if_pos rfl]
      simp
    have hhead : substName k (pre ++ f.name :: t.map PFile.name) f = renameF (k + pre.length) f := by
      simp [substName, hidx, renameF]
    have hre : pre ++ f.name :: t.map PFile.name = (pre ++ [f.name]) ++ t.map PFile.name := by
      simp
    have htail : t.map (substName k (pre ++ f.name :: t.map PFile.name)) =
        mapWithIdx renameF (k + pre.length + 1) t := by
      calc t.map (substName k (pre ++ f.name :: t.map PFile.name))
          = t.map (substName k ((pre ++ [f.name]) ++ t.map PFile.name)) := by rw [← hre]
      _ = mapWithIdx renameF (k + (pre ++ [f.name]).length) t :=
            ih (pre ++ [f.name]) k (by rw [← hre]; exact hnd)
      _ = mapWithIdx renameF (k + pre.length + 1) t := by
            have harith : k + (pre ++ [f.name]).length = k + pre.length + 1 := by
              simp only [List.length_append, List.length_singleton]
              omega
            rw [harith]
    rw [hhead, htail]

lemma renameLoop_id : ∀ (l : List PFile) (k : Nat) (s : List PFile), k + l.length ≤ 100 →
    renameLoop k (mapWithIdx nameF k l) s = s := by
  intro l
  induction l with
  | nil => intro k s _; rfl
  | cons f t ih =>
    intro k s h
    show renameLoop (k + 1) (mapWithIdx nameF (k + 1) t)
      (renameStep s (nameF k f) (newName k (nameF k f))) = s
    have hid : newName k (nameF k f) = nameF k f :=
      newName_idem k f.name (by simp only [List.length_cons] at h; omega)
    rw [hid, renameStep_self]
    exact ih (k + 1) s (by simp only [List.length_cons] at h; omega)

/-- C10 counterexample: in a directory holding `" a.mid"` and
`"00ADKSON.MID"`, the first pass renames `" a.mid"` onto the existing
`"00ADKSON.MID"`, silently destroying it (one file remains), and the second
pass computes a different name for the survivor and performs a rename — the
pass is not idempotent. -/
theorem rename_not_idempotent_counterexample :
    (eligibleFiles [⟨ofStr " a.mid", 1⟩, ⟨ofStr "00ADKSON.MID", 2⟩]).length ≤ 100 ∧
    (rename_files [⟨ofStr " a.mid", 1⟩, ⟨ofStr "00ADKSON.MID", 2⟩]).length = 1 ∧
    rename_files (rename_files [⟨ofStr " a.mid", 1⟩, ⟨ofStr "00ADKSON.MID", 2⟩]) ≠
      rename_files [⟨ofStr " a.mid", 1⟩, ⟨ofStr "00ADKSON.MID", 2⟩] :=
  ⟨by decide, by decide, by decide⟩

/-- C10 amended: over a directory (distinct file names) with at most 100
eligible files, whose computed new names coincide with no current file name —
so no rename can overwrite an existing file — the rename pass is idempotent:
the second pass computes for every file a name equal to its current name and
leaves the directory unchanged. -/
theorem rename_pass_idempotent_of_fresh (fs : List PFile)
    (hnodup : (fs.map PFile.name).Nodup)
    (h100 : (eligibleFiles fs).length ≤ 100)
    (hfresh : ∀ nn ∈ computedNames fs, ∀ f ∈ fs, f.name ≠ nn) :
    computedNames (rename_files fs) =
      (sortFiles (eligibleFiles (rename_files fs))).map PFile.name ∧
    rename_files (rename_files fs) = rename_files fs := by
  have hlen : (sortFiles (eligibleFiles fs)).length ≤ 100 := by
    rw [sortFiles_length]; exact h100
  have hpermE : List.Perm (sortFiles (eligibleFiles fs)) (eligibleFiles fs) :=
    sortFiles_perm (eligibleFiles fs)
  have hmemfs : ∀ nm ∈ (sortFiles (eligibleFiles fs)).map PFile.name,
      ∃ g, g ∈ eligibleFiles fs ∧ g.name = nm := by
    intro nm hnm
    obtain ⟨g, hg, rfl⟩ := List.mem_map.mp hnm
    exact ⟨g, hpermE.subset hg, rfl⟩
  have htargets : mapWithIdx newName 0 ((sortFiles (eligibleFiles fs)).map PFile.name) =
      computedNames fs := by
    rw [mapWithIdx_newName_map_name]
    rfl
  have hA1 : rename_files fs =
      fs.map (substName 0 ((sortFiles (eligibleFiles fs)).map PFile.name)) := by
    rw [rename_files]
    refine renameLoop_subst _ 0 fs ?_ ?_
    · rw [htargets]; exact hfresh
    · intro nm hnm nn hnn
      obtain ⟨g, hge, rfl⟩ := hmemfs nm hnm
      have hgfs : g ∈ fs := List.mem_of_mem_filter hge
      rw [htargets] at hnn
      exact hfresh nn hnn g hgfs
  have hnamesnodup : ((sortFiles (eligibleFiles fs)).map PFile.name).Nodup := by
    have h1 : ((eligibleFiles fs).map PFile.name).Nodup :=
      List.Nodup.sublist ((List.filter_sublist fs).map PFile.name) hnodup
    exact (hpermE.map PFile.name).nodup_iff.mpr h1
  have hinj := List.inj_on_of_nodup_map hnodup
  have hsubst_elig : ∀ f ∈ fs,
      isEligible (substName 0 ((sortFiles (eligibleFiles fs)).map PFile.name) f) =
        isEligible f := by
    intro f hf
    cases hidx : idxIn ((sortFiles (eligibleFiles fs)).map PFile.name) f.name with
    | none =>
      have heq : substName 0 ((sortFiles (eligibleFiles fs)).map PFile.name) f = f := by
        simp [substName, hidx]
      rw [heq]
    | some j =>
      have h1 : substName 0 ((sortFiles (eligibleFiles fs)).map PFile.name) f =
          { f with name := newName (0 + j) f.name } := by
        simp [substName, hidx]
      obtain ⟨g, hge, hgname⟩ := hmemfs f.name (idxIn_mem _ f.name j hidx)
      have hgfs : g ∈ fs := List.mem_of_mem_filter hge
      have hgelig : isEligible g = true := List.of_mem_filter hge
      have hfeq : f = g := hinj hf hgfs hgname.symm
      have hfelig : isEligible f = true := by rw [hfeq]; exact hgelig
      rw [h1, hfelig]
      exact isEligible_newName (0 + j) f.name f.size
  have hA2 : eligibleFiles (rename_files fs) =
      (eligibleFiles fs).map (substName 0 ((sortFiles (eligibleFiles fs)).map PFile.name)) := by
    rw [hA1]
    show (fs.map _).filter isEligible = (fs.filter isEligible).map _
    rw [List.filter_map]
    exact congrArg _ (List.filter_congr (fun f hf => hsubst_elig f hf))
  have hA4 : (sortFiles (eligibleFiles fs)).map
      (substName 0 ((sortFiles (eligibleFiles fs)).map PFile.name)) =
      mapWithIdx renameF 0 (sortFiles (eligibleFiles fs)) := by
    have h := subst_positions (sortFiles (eligibleFiles fs)) [] 0
      (by simpa using hnamesnodup)
    simpa using h
  have hA5 : sortFiles (eligibleFiles (rename_files fs)) =
      mapWithIdx renameF 0 (sortFiles (eligibleFiles fs)) := by
    have hperm2 : List.Perm (eligibleFiles (rename_files fs))
        (mapWithIdx renameF 0 (sortFiles (eligibleFiles fs))) := by
      rw [hA2, ← hA4]
      exact hpermE.symm.map _
    exact sorted_perm_eq _ (pairwise_strict_mapWithIdx _ 0 (by omega)) _
      ((sortFiles_perm _).trans hperm2) (pairwise_sortFiles _)
  constructor
  · show mapWithIdx nameF 0 (sortFiles (eligibleFiles (rename_files fs))) = _
    rw [hA5]
    exact mapWithIdx_nameF_self (sortFiles (eligibleFiles fs)) 0 (by omega)
  · show renameLoop 0 ((sortFiles (eligibleFiles (rename_files fs))).map PFile.name)
      (rename_files fs) = rename_files fs
    rw [hA5, map_name_mapWithIdx_renameF]
    exact renameLoop_id (sortFiles (eligibleFiles fs)) 0 (rename_files fs) (by omega)

theorem rename_pass_idempotent_of_fresh_witness :
    computedNames (rename_files [⟨ofStr "b song.mid", 5⟩, ⟨ofStr "A.fil", 7⟩, ⟨ofStr "x.txt", 9⟩]) =
      (sortFiles (eligibleFiles
        (rename_files [⟨ofStr "b song.mid", 5⟩, ⟨ofStr "A.fil", 7⟩, ⟨ofStr "x.txt", 9⟩]))).map
        PFile.name ∧
    rename_files (rename_files [⟨ofStr "b song.mid", 5⟩, ⟨ofStr "A.fil", 7⟩, ⟨ofStr "x.txt", 9⟩]) =
      rename_files [⟨ofStr "b song.mid", 5⟩, ⟨ofStr "A.fil", 7⟩, ⟨ofStr "x.txt", 9⟩] :=
  rename_pass_idempotent_of_fresh
    [⟨ofStr "b song.mid", 5⟩, ⟨ofStr "A.fil", 7⟩, ⟨ofStr "x.txt", 9⟩]
    (by decide) (by decide) (by decide)

end M2F
